import Mathlib

/-!
Verification development for the hyperspherical-harmonics basis construction and
indexing engine (`ultrasphere_harmonics`).

The development shallowly embeds the core of the library:

* `_ndim.py`: the closed-form dimension formulas `harm_n_ndim_eq` / `harm_n_ndim_le`;
* `_core/_flatten.py`: per-node index enumeration, the validity mask
  (`flatten_mask_harmonics`), `flatten_harmonics` and `unflatten_harmonics`;
* `_core/_assume.py`: inference of `n_end` and `include_negative_m` from shapes;
* `_core/_eigenfunction.py`: `minus_1_power`, the `Phase` flags, `type_a`, `type_c`;
* `_core/_harmonics.py`: the argument validation of the `harmonics` facade;
* `_core/_concat.py`: `concat_harmonics`.

Coordinate trees (the external `ultrasphere` collaborator) are modelled as the
inductive type `CTree` of branching types A / B / B' / C; a point of the joint
quantum-number index space is a decorated tree `HIdx`.  Machine floats are
modelled by real/complex numbers; external array primitives (`to_symmetric`,
`shift_nth_row_n_steps`, `array_namespace`) are modelled from their documented
contracts, which the spec also records.
-/

namespace UsphH

/-- `Mz e z` is the dimension of homogeneous polynomials of degree `z` in `e + 1`
variables: `C(z + e, e)` for `z ≥ 0` and `0` for negative `z`. -/
def Mz (e : ℕ) (z : ℤ) : ℤ :=
  if z < 0 then 0 else ((z.toNat + e).choose e : ℤ)

/-- `Hz e z` is the dimension of spherical harmonics of degree `z` in `e + 1`
variables, `Mz e z - Mz e (z - 2)`. -/
def Hz (e : ℕ) (z : ℤ) : ℤ :=
  Mz e z - Mz e (z - 2)

theorem Mz_neg {e : ℕ} {z : ℤ} (h : z < 0) : Mz e z = 0 := by
  simp [Mz, h]

theorem Mz_ofNat (e n : ℕ) : Mz e (n : ℤ) = ((n + e).choose e : ℤ) := by
  simp [Mz]

theorem Mz_nonneg (e : ℕ) (z : ℤ) : 0 ≤ Mz e z := by
  unfold Mz
  split
  · exact le_refl 0
  · exact_mod_cast Nat.zero_le _

theorem Hz_neg {e : ℕ} {z : ℤ} (h : z < 0) : Hz e z = 0 := by
  unfold Hz
  rw [Mz_neg h, Mz_neg (show z - 2 < 0 by omega)]
  ring

/-- Pascal's rule for `Mz`. -/
theorem Mz_pascal (e : ℕ) (z : ℤ) : Mz (e + 1) z = Mz (e + 1) (z - 1) + Mz e z := by
  by_cases hneg : z < 0
  · rw [Mz_neg hneg, Mz_neg (show z - 1 < 0 by omega), Mz_neg hneg]
    ring
  · by_cases h0 : z = 0
    · subst h0
      rw [Mz_neg (show (0 : ℤ) - 1 < 0 by norm_num)]
      simp [Mz]
    · have hz1 : ¬ z < 0 := hneg
      have hz2 : ¬ z - 1 < 0 := by omega
      have htn : z.toNat = (z - 1).toNat + 1 := by omega
      unfold Mz
      rw [if_neg hz1, if_neg hz2, if_neg hz1, htn]
      have h3 : (z - 1).toNat + 1 + (e + 1) = ((z - 1).toNat + (e + 1)) + 1 := by ring
      rw [h3, Nat.choose_succ_succ ((z - 1).toNat + (e + 1)) e]
      push_cast
      have h4 : (z - 1).toNat + (e + 1) = (z - 1).toNat + 1 + e := by ring
      rw [h4]
      ring

/-- Cumulative sums of `Mz e` give `Mz (e + 1)`. -/
theorem Mz_sum_range (e n : ℕ) :
    ∑ k ∈ Finset.range n, Mz e (k : ℤ) = Mz (e + 1) ((n : ℤ) - 1) := by
  induction n with
  | zero => simp [Mz_neg]
  | succ n ih =>
      rw [Finset.sum_range_succ, ih]
      have h1 : ((n + 1 : ℕ) : ℤ) - 1 = (n : ℤ) := by push_cast; ring
      rw [h1, Mz_pascal e (n : ℤ)]

theorem Mz_sum_range_succ (e a : ℕ) :
    ∑ k ∈ Finset.range (a + 1), Mz e (k : ℤ) = Mz (e + 1) (a : ℤ) := by
  rw [Mz_sum_range e (a + 1)]
  congr 1
  push_cast
  ring

theorem sum_range_if_le {M : Type} [AddCommMonoid M] (f : ℕ → M) (a N : ℕ) (h : a < N) :
    ∑ j ∈ Finset.range N, (if j ≤ a then f j else 0) = ∑ j ∈ Finset.range (a + 1), f j := by
  rw [← Finset.sum_filter]
  apply Finset.sum_congr
  · ext x
    simp only [Finset.mem_filter, Finset.mem_range]
    omega
  · intro x _
    rfl

/-- Vandermonde-type convolution for `Mz`. -/
theorem Mz_vandermonde (e1 : ℕ) : ∀ (e2 m : ℕ),
    ∑ a ∈ Finset.range (m + 1), Mz e1 (a : ℤ) * Mz e2 ((m : ℤ) - (a : ℤ))
      = Mz (e1 + e2 + 1) (m : ℤ) := by
  induction e1 with
  | zero =>
      intro e2 m
      have h0 : ∀ a ∈ Finset.range (m + 1),
          Mz 0 (a : ℤ) * Mz e2 ((m : ℤ) - (a : ℤ)) = Mz e2 ((m - a : ℕ) : ℤ) := by
        intro a ha
        rw [Finset.mem_range] at ha
        have h00 : Mz 0 (a : ℤ) = 1 := by simp [Mz]
        rw [h00, one_mul]
        congr 1
        omega
      rw [Finset.sum_congr rfl h0, ← Finset.sum_range_reflect (fun a => Mz e2 ((m - a : ℕ) : ℤ))]
      have h1 : ∀ a ∈ Finset.range (m + 1),
          Mz e2 ((m - (m + 1 - 1 - a) : ℕ) : ℤ) = Mz e2 (a : ℤ) := by
        intro a ha
        rw [Finset.mem_range] at ha
        congr 1
        omega
      rw [Finset.sum_congr rfl h1, Mz_sum_range_succ e2 m]
      norm_num
  | succ e1 ih =>
      intro e2 m
      have step1 : ∀ a ∈ Finset.range (m + 1),
          Mz (e1 + 1) (a : ℤ) * Mz e2 ((m : ℤ) - (a : ℤ))
            = ∑ j ∈ Finset.range (m + 1),
                (if j ≤ a then Mz e1 (j : ℤ) * Mz e2 ((m : ℤ) - (a : ℤ)) else 0) := by
        intro a ha
        rw [Finset.mem_range] at ha
        rw [← Mz_sum_range_succ e1 a, Finset.sum_mul,
          sum_range_if_le (fun j => Mz e1 (j : ℤ) * Mz e2 ((m : ℤ) - (a : ℤ))) a (m + 1)
            (by omega)]
      rw [Finset.sum_congr rfl step1, Finset.sum_comm]
      have step2 : ∀ j ∈ Finset.range (m + 1),
          (∑ a ∈ Finset.range (m + 1),
              (if j ≤ a then Mz e1 (j : ℤ) * Mz e2 ((m : ℤ) - (a : ℤ)) else 0))
            = Mz e1 (j : ℤ) * Mz (e2 + 1) ((m : ℤ) - (j : ℤ)) := by
        intro j hj
        rw [Finset.mem_range] at hj
        have h2 : ∀ a ∈ Finset.range (m + 1),
            (if j ≤ a then Mz e1 (j : ℤ) * Mz e2 ((m : ℤ) - (a : ℤ)) else 0)
              = Mz e1 (j : ℤ) * (if j ≤ a then Mz e2 ((m : ℤ) - (a : ℤ)) else 0) := by
          intro a _
          split <;> simp
        rw [Finset.sum_congr rfl h2, ← Finset.mul_sum]
        congr 1
        rw [← Finset.sum_range_reflect
          (fun a => if j ≤ a then Mz e2 ((m : ℤ) - (a : ℤ)) else 0) (m + 1)]
        have h3 : ∀ b ∈ Finset.range (m + 1),
            (if j ≤ m + 1 - 1 - b then Mz e2 ((m : ℤ) - ((m + 1 - 1 - b : ℕ) : ℤ)) else 0)
              = (if b ≤ m - j then Mz e2 (b : ℤ) else 0) := by
          intro b hb
          rw [Finset.mem_range] at hb
          by_cases hc : b ≤ m - j
          · rw [if_pos (by omega), if_pos hc]
            congr 1
            omega
          · rw [if_neg (by omega), if_neg hc]
        rw [Finset.sum_congr rfl h3,
          sum_range_if_le (fun b => Mz e2 (b : ℤ)) (m - j) (m + 1) (by omega),
          Mz_sum_range_succ e2 (m - j)]
        congr 1
        omega
      rw [Finset.sum_congr rfl step2]
      have hfin := ih (e2 + 1) m
      rw [show e1 + 1 + e2 + 1 = e1 + (e2 + 1) + 1 by ring]
      exact hfin

theorem Hz_of_lt_two (e : ℕ) {z : ℤ} (h2 : z < 2) : Hz e z = Mz e z := by
  unfold Hz
  rw [Mz_neg (show z - 2 < 0 by omega)]
  ring

/-- Pascal's rule for `Hz`. -/
theorem Hz_pascal (e : ℕ) (z : ℤ) : Hz (e + 1) z = Hz (e + 1) (z - 1) + Hz e z := by
  unfold Hz
  have h1 := Mz_pascal e z
  have h2 := Mz_pascal e (z - 2)
  have h3 : z - 2 - 1 = z - 1 - 2 := by ring
  rw [h3] at h2
  rw [h1, h2]
  ring

/-- Partial sums of `Hz e` give `Hz (e + 1)`. -/
theorem Hz_sum_range_succ (e l : ℕ) :
    ∑ j ∈ Finset.range (l + 1), Hz e (j : ℤ) = Hz (e + 1) (l : ℤ) := by
  induction l with
  | zero =>
      rw [Finset.sum_range_one, Hz_of_lt_two e (by norm_num),
        Hz_of_lt_two (e + 1) (by norm_num)]
      simp [Mz]
  | succ l ih =>
      rw [Finset.sum_range_succ, ih]
      have h1 : ((l + 1 : ℕ) : ℤ) = (l : ℤ) + 1 := by push_cast; ring
      rw [h1, Hz_pascal e ((l : ℤ) + 1)]
      have h2 : (l : ℤ) + 1 - 1 = (l : ℤ) := by ring
      rw [h2]

/-- Telescoping sum of `Hz` in steps of two. -/
theorem Hz_sum_even (e : ℕ) (z : ℤ) (T : ℕ) :
    ∑ t ∈ Finset.range T, Hz e (z - 2 * (t : ℤ)) = Mz e z - Mz e (z - 2 * (T : ℤ)) := by
  induction T with
  | zero => simp
  | succ T ih =>
      rw [Finset.sum_range_succ, ih]
      unfold Hz
      push_cast
      ring_nf

theorem Mz_mono (e : ℕ) {z w : ℤ} (h : z ≤ w) : Mz e z ≤ Mz e w := by
  unfold Mz
  by_cases hz : z < 0
  · rw [if_pos hz]
    split
    · exact le_refl 0
    · exact_mod_cast Nat.zero_le _
  · rw [if_neg hz, if_neg (by omega)]
    have : z.toNat + e ≤ w.toNat + e := by omega
    exact_mod_cast Nat.choose_le_choose e this

theorem Hz_nonneg (e : ℕ) (z : ℤ) : 0 ≤ Hz e z := by
  unfold Hz
  have := Mz_mono e (show z - 2 ≤ z by omega)
  omega

/-- `Hz e z` is positive for `e ≥ 1` and `z ≥ 0`. -/
theorem Hz_pos (e : ℕ) (he : 1 ≤ e) {z : ℤ} (hz : 0 ≤ z) : 1 ≤ Hz e z := by
  unfold Hz
  by_cases h2 : z < 2
  · rw [Mz_neg (show z - 2 < 0 by omega)]
    unfold Mz
    rw [if_neg (show ¬ z < 0 by omega)]
    have hp : 0 < (z.toNat + e).choose e := Nat.choose_pos (by omega)
    omega
  · unfold Mz
    rw [if_neg (show ¬ z < 0 by omega), if_neg (show ¬ z - 2 < 0 by omega)]
    have hlt : ((z - 2).toNat + e).choose e < (z.toNat + e).choose e := by
      have hstep : ∀ m : ℕ, e ≤ m → m.choose e < (m + 1).choose e := by
        intro m hm
        obtain ⟨e0, rfl⟩ : ∃ e0, e = e0 + 1 := ⟨e - 1, by omega⟩
        rw [Nat.choose_succ_succ m e0]
        simp only [Nat.succ_eq_add_one]
        have hp0 : 0 < m.choose e0 := Nat.choose_pos (by omega)
        omega
      have hs1 : ((z - 2).toNat + e).choose e < ((z - 2).toNat + e + 1).choose e :=
        hstep _ (by omega)
      have hs2 : ((z - 2).toNat + e + 1).choose e ≤ (z.toNat + e).choose e :=
        Nat.choose_le_choose e (by omega)
      omega
    omega

/-- Even-spaced indicator sum of `Hz` collapses to `Mz`. -/
theorem Hz_even_filter (e : ℕ) : ∀ (z N : ℕ), z < N →
    (∑ b ∈ Finset.range N, if b ≤ z ∧ (z - b) % 2 = 0 then Hz e (b : ℤ) else 0)
      = Mz e (z : ℤ) := by
  intro z
  induction z using Nat.strong_induction_on with
  | _ z ih =>
      intro N hN
      by_cases hz2 : z < 2
      · have hpt : ∀ b ∈ Finset.range N,
            (if b ≤ z ∧ (z - b) % 2 = 0 then Hz e (b : ℤ) else 0)
              = (if b = z then Hz e (b : ℤ) else 0) := by
          intro b _
          by_cases hb : b = z
          · subst hb
            rw [if_pos ⟨le_refl b, by omega⟩, if_pos rfl]
          · rw [if_neg (fun hc => hb (by omega)), if_neg hb]
        rw [Finset.sum_congr rfl hpt, Finset.sum_ite_eq' (Finset.range N) z
          (fun b => Hz e (b : ℤ)), if_pos (Finset.mem_range.mpr hN),
          Hz_of_lt_two e (by omega)]
      · have hpt : ∀ b ∈ Finset.range N,
            (if b ≤ z ∧ (z - b) % 2 = 0 then Hz e (b : ℤ) else 0)
              = (if b = z then Hz e (b : ℤ) else 0)
                + (if b ≤ z - 2 ∧ (z - 2 - b) % 2 = 0 then Hz e (b : ℤ) else 0) := by
          intro b _
          by_cases hb : b = z
          · subst hb
            rw [if_pos (by omega), if_pos rfl, if_neg (by omega)]
            ring
          · rw [if_neg hb]
            by_cases hc : b ≤ z - 2 ∧ (z - 2 - b) % 2 = 0
            · rw [if_pos (by omega), if_pos hc]
              ring
            · rw [if_neg (by omega), if_neg hc]
              ring
        rw [Finset.sum_congr rfl hpt, Finset.sum_add_distrib,
          Finset.sum_ite_eq' (Finset.range N) z (fun b => Hz e (b : ℤ)),
          if_pos (Finset.mem_range.mpr hN), ih (z - 2) (by omega) N (by omega)]
        unfold Hz
        have hcast : ((z - 2 : ℕ) : ℤ) = (z : ℤ) - 2 := by omega
        rw [hcast]
        ring

/-- Convolution of `Hz` against `Mz`. -/
theorem HzMz_conv (e1 e2 l : ℕ) :
    ∑ a ∈ Finset.range (l + 1), Hz e1 (a : ℤ) * Mz e2 ((l : ℤ) - (a : ℤ))
      = Hz (e1 + e2 + 1) (l : ℤ) := by
  have hsplit : ∀ a ∈ Finset.range (l + 1),
      Hz e1 (a : ℤ) * Mz e2 ((l : ℤ) - (a : ℤ))
        = Mz e1 (a : ℤ) * Mz e2 ((l : ℤ) - (a : ℤ))
          - Mz e1 ((a : ℤ) - 2) * Mz e2 ((l : ℤ) - (a : ℤ)) := by
    intro a _
    unfold Hz
    ring
  rw [Finset.sum_congr rfl hsplit, Finset.sum_sub_distrib, Mz_vandermonde e1 e2 l]
  have hS2 : ∑ a ∈ Finset.range (l + 1), Mz e1 ((a : ℤ) - 2) * Mz e2 ((l : ℤ) - (a : ℤ))
      = Mz (e1 + e2 + 1) ((l : ℤ) - 2) := by
    by_cases hl : l < 2
    · have hzero : ∀ a ∈ Finset.range (l + 1),
          Mz e1 ((a : ℤ) - 2) * Mz e2 ((l : ℤ) - (a : ℤ)) = 0 := by
        intro a ha
        rw [Finset.mem_range] at ha
        rw [Mz_neg (show (a : ℤ) - 2 < 0 by omega)]
        ring
      rw [Finset.sum_congr rfl hzero, Finset.sum_const_zero,
        Mz_neg (show (l : ℤ) - 2 < 0 by omega)]
    · have hrw : l + 1 = 2 + (l - 1) := by omega
      rw [hrw, Finset.sum_range_add]
      have hz0 : ∑ a ∈ Finset.range 2,
          Mz e1 ((a : ℤ) - 2) * Mz e2 (((l : ℤ)) - (a : ℤ)) = 0 := by
        rw [Finset.sum_range_succ, Finset.sum_range_one]
        rw [Mz_neg (show ((0 : ℕ) : ℤ) - 2 < 0 by norm_num),
          Mz_neg (show ((1 : ℕ) : ℤ) - 2 < 0 by norm_num)]
        ring
      rw [hz0, zero_add]
      have hpt : ∀ i ∈ Finset.range (l - 1),
          Mz e1 (((2 + i : ℕ) : ℤ) - 2) * Mz e2 ((l : ℤ) - ((2 + i : ℕ) : ℤ))
            = Mz e1 (i : ℤ) * Mz e2 (((l - 2 : ℕ) : ℤ) - (i : ℤ)) := by
        intro i _
        congr 1
        · congr 1
          omega
        · congr 1
          omega
      rw [Finset.sum_congr rfl hpt]
      have hrw2 : l - 1 = (l - 2) + 1 := by omega
      rw [hrw2, Mz_vandermonde e1 e2 (l - 2)]
      congr 1
      omega
  rw [hS2]
  unfold Hz
  ring

/-- The masked double convolution of `Hz` with the parity-and-slack condition of a
type-C node collapses to `Hz` of the joined dimension. -/
theorem Hz_parity_conv (e1 e2 l N : ℕ) (hN : l < N) :
    ∑ a ∈ Finset.range N, ∑ b ∈ Finset.range N,
        (if a + b ≤ l ∧ (l - (a + b)) % 2 = 0 then Hz e1 (a : ℤ) * Hz e2 (b : ℤ) else 0)
      = Hz (e1 + e2 + 1) (l : ℤ) := by
  have houter : ∀ a ∈ Finset.range N,
      (∑ b ∈ Finset.range N,
          (if a + b ≤ l ∧ (l - (a + b)) % 2 = 0 then Hz e1 (a : ℤ) * Hz e2 (b : ℤ) else 0))
        = (if a ≤ l then Hz e1 (a : ℤ) * Mz e2 ((l - a : ℕ) : ℤ) else 0) := by
    intro a _
    by_cases ha : a ≤ l
    · rw [if_pos ha]
      have hpt : ∀ b ∈ Finset.range N,
          (if a + b ≤ l ∧ (l - (a + b)) % 2 = 0 then Hz e1 (a : ℤ) * Hz e2 (b : ℤ) else 0)
            = Hz e1 (a : ℤ)
              * (if b ≤ l - a ∧ (l - a - b) % 2 = 0 then Hz e2 (b : ℤ) else 0) := by
        intro b _
        by_cases hc : b ≤ l - a ∧ (l - a - b) % 2 = 0
        · rw [if_pos (by omega), if_pos hc]
        · rw [if_neg (by omega), if_neg hc]
          ring
      rw [Finset.sum_congr rfl hpt, ← Finset.mul_sum,
        Hz_even_filter e2 (l - a) N (by omega)]
    · rw [if_neg ha]
      apply Finset.sum_eq_zero
      intro b _
      rw [if_neg (by omega)]
  rw [Finset.sum_congr rfl houter,
    sum_range_if_le (fun a => Hz e1 (a : ℤ) * Mz e2 ((l - a : ℕ) : ℤ)) l N hN]
  have hpt2 : ∀ a ∈ Finset.range (l + 1),
      Hz e1 (a : ℤ) * Mz e2 ((l - a : ℕ) : ℤ)
        = Hz e1 (a : ℤ) * Mz e2 ((l : ℤ) - (a : ℤ)) := by
    intro a ha
    rw [Finset.mem_range] at ha
    congr 1
    congr 1
    omega
  rw [Finset.sum_congr rfl hpt2, HzMz_conv e1 e2 l]


/-- Embedded from `_ndim.py::harm_n_ndim_eq`: dimension of the spherical harmonics of
degree equal to `n` on the sphere in `c_ndim`-dimensional Cartesian space.  The float
computation `round((2n + c - 2)/(c - 2) * binom(n + c - 3, c - 3))` of the source is
modelled by exact natural division, which agrees because the quotient is integral. -/
def harm_n_ndim_eq (n : ℕ) (c_ndim : ℕ) : ℕ :=
  if 2 < c_ndim then
    ((2 * n + c_ndim - 2) * Nat.choose (n + c_ndim - 3) (c_ndim - 3)) / (c_ndim - 2)
  else if c_ndim = 1 then (if n ≤ 1 then 1 else 0)
  else if n = 0 then 1 else 2

/-- Embedded from `_ndim.py::harm_n_ndim_le`: dimension of the spherical harmonics of
degree below `n_end`. -/
def harm_n_ndim_le (n_end : ℕ) (c_ndim : ℕ) : ℕ :=
  if n_end < 1 then 0
  else if n_end = 1 then harm_n_ndim_eq 0 c_ndim
  else harm_n_ndim_eq (n_end - 1) (c_ndim + 1)

theorem choose_two_step (n q : ℕ) :
    (n + q + 2).choose (q + 2)
      = (n + q).choose q + 2 * ((n + q).choose (q + 1)) + (n + q).choose (q + 2) := by
  have h1 := Nat.choose_succ_succ (n + q + 1) (q + 1)
  have h2 := Nat.choose_succ_succ (n + q) q
  have h3 := Nat.choose_succ_succ (n + q) (q + 1)
  simp only [Nat.succ_eq_add_one] at h1 h2 h3
  have e1 : n + q + 1 + 1 = n + q + 2 := by ring
  have e2 : q + 1 + 1 = q + 2 := by ring
  rw [e1, e2] at h1
  rw [e2] at h3
  rw [h1, h2, h3]
  ring

theorem choose_absorb (n q : ℕ) :
    (q + 1) * (n + q).choose (q + 1) = n * (n + q).choose q := by
  have h := Nat.choose_succ_right_eq (n + q) q
  have e : n + q - q = n := by omega
  rw [e] at h
  rw [mul_comm, h]
  ring

theorem harm_eq_big (n q : ℕ) :
    harm_n_ndim_eq n (q + 3) = 2 * (n + q).choose (q + 1) + (n + q).choose q := by
  unfold harm_n_ndim_eq
  rw [if_pos (show 2 < q + 3 by omega)]
  have e1 : 2 * n + (q + 3) - 2 = 2 * n + q + 1 := by omega
  have e2 : n + (q + 3) - 3 = n + q := by omega
  have e3 : q + 3 - 3 = q := by omega
  have e4 : q + 3 - 2 = q + 1 := by omega
  rw [e1, e2, e3, e4]
  have hnum : (2 * n + q + 1) * (n + q).choose q
      = (q + 1) * (2 * (n + q).choose (q + 1) + (n + q).choose q) := by
    have h := choose_absorb n q
    calc (2 * n + q + 1) * (n + q).choose q
        = 2 * (n * (n + q).choose q) + (q + 1) * (n + q).choose q := by ring
      _ = 2 * ((q + 1) * (n + q).choose (q + 1)) + (q + 1) * (n + q).choose q := by rw [h]
      _ = (q + 1) * (2 * (n + q).choose (q + 1) + (n + q).choose q) := by ring
  rw [hnum, Nat.mul_div_cancel_left _ (show 0 < q + 1 by omega)]

/-- The code's `harm_n_ndim_eq` agrees with the model dimension `Hz`. -/
theorem harm_eq_cast (n e : ℕ) : (harm_n_ndim_eq n (e + 1) : ℤ) = Hz e (n : ℤ) := by
  match e with
  | 0 =>
      unfold harm_n_ndim_eq
      rw [if_neg (show ¬ 2 < 0 + 1 by omega), if_pos (show 0 + 1 = 1 by omega)]
      by_cases h : n ≤ 1
      · rw [if_pos h, Hz_of_lt_two 0 (show (n : ℤ) < 2 by omega)]
        unfold Mz
        rw [if_neg (show ¬ (n : ℤ) < 0 by omega)]
        simp
      · rw [if_neg h]
        unfold Hz Mz
        rw [if_neg (show ¬ (n : ℤ) < 0 by omega),
          if_neg (show ¬ (n : ℤ) - 2 < 0 by omega)]
        simp
  | 1 =>
      unfold harm_n_ndim_eq
      rw [if_neg (show ¬ 2 < 1 + 1 by omega), if_neg (show ¬ 1 + 1 = 1 by omega)]
      by_cases h : n = 0
      · subst h
        rw [if_pos rfl, Hz_of_lt_two 1 (show ((0 : ℕ) : ℤ) < 2 by norm_num)]
        unfold Mz
        rw [if_neg (show ¬ ((0 : ℕ) : ℤ) < 0 by norm_num)]
        simp
      · rw [if_neg h]
        unfold Hz Mz
        rw [if_neg (show ¬ (n : ℤ) < 0 by omega)]
        by_cases h2 : n ≤ 1
        · rw [if_pos (show (n : ℤ) - 2 < 0 by omega)]
          have hn1 : n = 1 := by omega
          subst hn1
          simp
        · rw [if_neg (show ¬ (n : ℤ) - 2 < 0 by omega)]
          have ht1 : (n : ℤ).toNat = n := by omega
          have ht2 : ((n : ℤ) - 2).toNat = n - 2 := by omega
          rw [ht1, ht2]
          have hc1 : (n + 1).choose 1 = n + 1 := Nat.choose_one_right (n + 1)
          have hc2 : (n - 2 + 1).choose 1 = n - 2 + 1 := Nat.choose_one_right (n - 2 + 1)
          rw [hc1, hc2]
          omega
  | (q + 2) =>
      have hbig := harm_eq_big n q
      have e5 : q + 2 + 1 = q + 3 := by ring
      rw [e5, hbig]
      unfold Hz
      have hm1 : Mz (q + 2) (n : ℤ) = ((n + q + 2).choose (q + 2) : ℤ) := by
        rw [Mz_ofNat]
        congr 2 <;> omega
      have hm2 : Mz (q + 2) ((n : ℤ) - 2) = ((n + q).choose (q + 2) : ℤ) := by
        by_cases h : n < 2
        · rw [Mz_neg (show (n : ℤ) - 2 < 0 by omega)]
          have hz : (n + q).choose (q + 2) = 0 := Nat.choose_eq_zero_of_lt (by omega)
          rw [hz]
          norm_num
        · unfold Mz
          rw [if_neg (show ¬ (n : ℤ) - 2 < 0 by omega)]
          have ht : ((n : ℤ) - 2).toNat = n - 2 := by omega
          rw [ht]
          congr 2 <;> omega
      rw [hm1, hm2]
      have hstep := choose_two_step n q
      push_cast
      push_cast at hstep
      omega

/-- The code's `harm_n_ndim_le` is the partial sum of the model dimensions `Hz`. -/
theorem harm_le_cast (n e : ℕ) :
    (harm_n_ndim_le n (e + 1) : ℤ) = ∑ l ∈ Finset.range n, Hz e (l : ℤ) := by
  unfold harm_n_ndim_le
  by_cases h0 : n < 1
  · rw [if_pos h0]
    have hn : n = 0 := by omega
    subst hn
    simp
  · rw [if_neg h0]
    by_cases h1 : n = 1
    · subst h1
      rw [if_pos rfl, Finset.sum_range_one, harm_eq_cast 0 e]
    · rw [if_neg h1]
      obtain ⟨m, rfl⟩ : ∃ m, n = m + 1 := ⟨n - 1, by omega⟩
      simp only [Nat.add_sub_cancel]
      rw [harm_eq_cast m (e + 1), Hz_sum_range_succ e m]

theorem harm_le_mono (e : ℕ) {n m : ℕ} (h : n ≤ m) :
    harm_n_ndim_le n (e + 1) ≤ harm_n_ndim_le m (e + 1) := by
  have h1 := harm_le_cast n e
  have h2 := harm_le_cast m e
  have hsub : ∑ l ∈ Finset.range n, Hz e (l : ℤ) ≤ ∑ l ∈ Finset.range m, Hz e (l : ℤ) :=
    Finset.sum_le_sum_of_subset_of_nonneg
      (Finset.range_subset.mpr h) (fun i _ _ => Hz_nonneg e (i : ℤ))
  omega

theorem harm_le_strict (e : ℕ) (he : 1 ≤ e) (n : ℕ) :
    harm_n_ndim_le n (e + 1) < harm_n_ndim_le (n + 1) (e + 1) := by
  have h1 := harm_le_cast n e
  have h2 := harm_le_cast (n + 1) e
  rw [Finset.sum_range_succ] at h2
  have hp := Hz_pos e he (show (0 : ℤ) ≤ (n : ℤ) by omega)
  omega

theorem harm_le_ge_self (e : ℕ) (he : 1 ≤ e) (n : ℕ) : n ≤ harm_n_ndim_le n (e + 1) := by
  induction n with
  | zero => omega
  | succ n ih =>
      have := harm_le_strict e he n
      omega

/-- Branching structure of a coordinate tree with at least one angular node
(modelled from the spec's description of the external `ultrasphere` collaborator):
a node is a leaf of type `A`, has one sin-child (`B`), one cos-child (`BP`,
written B' in the spec), or a cos-child and a sin-child (`C`). -/
inductive CTree : Type where
  | A : CTree
  | B (sin : CTree) : CTree
  | BP (cos : CTree) : CTree
  | C (cos : CTree) (sin : CTree) : CTree
deriving DecidableEq, Repr

/-- Number of angular nodes (`c.s_ndim`) of the tree; the Cartesian dimension
`c.c_ndim` of the tree is `ndim + 1`. -/
def CTree.ndim : CTree → ℕ
  | .A => 1
  | .B s => s.ndim + 1
  | .BP c => c.ndim + 1
  | .C c s => c.ndim + s.ndim + 1

/-- A point of the joint quantum-number index space: one integer per tree node,
arranged like the tree. -/
inductive HIdx : Type where
  | A (m : ℤ) : HIdx
  | B (l : ℤ) (sin : HIdx) : HIdx
  | BP (l : ℤ) (cos : HIdx) : HIdx
  | C (l : ℤ) (cos : HIdx) (sin : HIdx) : HIdx
deriving DecidableEq, Repr

/-- The physical quantum number stored at the root node. -/
def HIdx.root : HIdx → ℤ
  | .A m => m
  | .B l _ => l
  | .BP l _ => l
  | .C l _ _ => l

/-- Modelled from `array_api_negative_index.to_symmetric(arange(0, n_end), asymmetric=True)`
(per its documented contract, quoted in the source's docstrings): the signed order list
`[0, 1, ..., n-1, -(n-1), ..., -1]`. -/
def symRange (n : ℕ) : List ℤ :=
  (List.range n).map (Nat.cast : ℕ → ℤ)
    ++ (List.range (n - 1)).reverse.map (fun (k : ℕ) => -((k : ℤ) + 1))

/-- `arange(0, n_end)` as a list of integers. -/
def posRange (n : ℕ) : List ℤ :=
  (List.range n).map (Nat.cast : ℕ → ℤ)

/-- Embedded from `_flatten.py::_index_array_harmonics`: the physical index range of
one node, signed for a type-A node when `include_negative_m` is set. -/
def aRange (n : ℕ) (inm : Bool) : List ℤ :=
  if inm then symRange n else posRange n

/-- Row-major enumeration of the joint index space: the Cartesian product, over all
tree nodes, of the per-node index ranges of `_index_array_harmonics` (node before
cos-subtree before sin-subtree; only the order of type-A ranges is observable). -/
def CTree.enum : CTree → ℕ → Bool → List HIdx
  | .A, n, inm => (aRange n inm).map HIdx.A
  | .B s, n, inm => (posRange n).flatMap (fun l => (s.enum n inm).map (HIdx.B l))
  | .BP c, n, inm => (posRange n).flatMap (fun l => (c.enum n inm).map (HIdx.BP l))
  | .C c s, n, inm =>
      (posRange n).flatMap (fun l =>
        (c.enum n inm).flatMap (fun xc => (s.enum n inm).map (fun xs => HIdx.C l xc xs)))

/-- Embedded from `_flatten.py::flatten_mask_harmonics`: starting from an all-true
mask, AND in, for every type-B node `|index[sin-child]| ≤ index[node]`, for every
type-B' node `|index[cos-child]| ≤ index[node]`, and for every type-C node the
parity and nonnegativity of `index[node] - |index[sin-child]| - |index[cos-child]|`. -/
def flatten_mask_harmonics : HIdx → Bool
  | .A _ => true
  | .B l s => (decide (|s.root| ≤ l)) && flatten_mask_harmonics s
  | .BP l c => (decide (|c.root| ≤ l)) && flatten_mask_harmonics c
  | .C l c s =>
      ((decide ((l - |s.root| - |c.root|) % 2 = 0)) && (decide (0 ≤ l - |s.root| - |c.root|)))
        && (flatten_mask_harmonics c && flatten_mask_harmonics s)

/-- Number of valid joint index combinations whose root quantum number has absolute
value `l`. -/
def cnt (t : CTree) (n : ℕ) (inm : Bool) (l : ℕ) : ℕ :=
  (t.enum n inm).countP (fun a => flatten_mask_harmonics a && a.root.natAbs == l)

theorem list_sum_map_range {M : Type} [AddCommMonoid M] (f : ℕ → M) (n : ℕ) :
    ((List.range n).map f).sum = ∑ i ∈ Finset.range n, f i := by
  induction n with
  | zero => simp
  | succ n ih =>
      rw [List.range_succ, List.map_append, List.sum_append, Finset.sum_range_succ, ih]
      simp

theorem countP_flatMap_sum {α β : Type} (L : List α) (g : α → List β) (p : β → Bool) :
    (L.flatMap g).countP p = (L.map (fun x => (g x).countP p)).sum := by
  induction L with
  | nil => simp
  | cons a L ih => simp [List.flatMap_cons, List.countP_append, ih]

theorem countP_partition {α : Type} (L : List α) (p : α → Bool) (key : α → ℕ) (N : ℕ)
    (h : ∀ x ∈ L, key x < N) :
    L.countP p = ∑ v ∈ Finset.range N, L.countP (fun x => p x && key x == v) := by
  induction L with
  | nil => simp
  | cons a L ih =>
      have hL : ∀ x ∈ L, key x < N := fun x hx => h x (List.mem_cons_of_mem a hx)
      have hpt : ∀ v ∈ Finset.range N,
          (a :: L).countP (fun x => p x && key x == v)
            = L.countP (fun x => p x && key x == v)
              + (if v = key a then (if p a then 1 else 0) else 0) := by
        intro v _
        rw [List.countP_cons]
        congr 1
        by_cases hv : v = key a
        · subst hv
          by_cases hp : p a = true
          · simp [hp]
          · simp [hp]
        · have : (key a == v) = false := by
            simp only [beq_eq_false_iff_ne]
            omega
          simp [this, hv]
      rw [List.countP_cons, ih hL, Finset.sum_congr rfl hpt, Finset.sum_add_distrib,
        Finset.sum_ite_eq' (Finset.range N) (key a) (fun _ => if p a then 1 else 0),
        if_pos (Finset.mem_range.mpr (h a (List.mem_cons_self a L)))]

theorem countP_flatMap_map_mul {α β γ : Type} (L1 : List α) (L2 : List β) (f : α → β → γ)
    (p : γ → Bool) (q1 : α → Bool) (q2 : β → Bool)
    (h : ∀ x ∈ L1, ∀ y ∈ L2, p (f x y) = (q1 x && q2 y)) :
    (L1.flatMap (fun x => L2.map (f x))).countP p = L1.countP q1 * L2.countP q2 := by
  induction L1 with
  | nil => simp
  | cons a L1 ih =>
      rw [List.flatMap_cons, List.countP_append,
        ih (fun x hx y hy => h x (List.mem_cons_of_mem a hx) y hy), List.countP_cons,
        List.countP_map]
      have hmap : L2.countP (p ∘ f a) = (if q1 a = true then L2.countP q2 else 0) := by
        by_cases hq : q1 a = true
        · rw [if_pos hq]
          apply List.countP_congr
          intro y hy
          simp only [Function.comp_apply, h a (List.mem_cons_self a L1) y hy, hq,
            Bool.true_and]
        · rw [if_neg hq]
          rw [List.countP_eq_zero]
          intro y hy
          rw [Function.comp_apply, h a (List.mem_cons_self a L1) y hy]
          simp [hq]
      rw [hmap]
      by_cases hq : q1 a = true
      · rw [if_pos hq, if_pos hq]
        ring
      · rw [if_neg hq, if_neg hq]
        ring

theorem countP_beq_range (n l : ℕ) :
    (List.range n).countP (fun k => k == l) = if l < n then 1 else 0 := by
  induction n with
  | zero => simp
  | succ n ih =>
      rw [List.range_succ, List.countP_append, ih]
      have hsing : List.countP (fun k => k == l) [n] = if n = l then 1 else 0 := by
        by_cases h : n = l <;> simp [List.countP_cons, h]
      rw [hsing]
      by_cases h : l < n
      · rw [if_pos h, if_neg (by omega), if_pos (by omega)]
      · by_cases h2 : n = l
        · rw [if_neg h, if_pos h2, if_pos (by omega)]
        · rw [if_neg h, if_neg h2, if_neg (by omega)]

theorem mem_posRange {m : ℤ} {n : ℕ} (h : m ∈ posRange n) : 0 ≤ m ∧ m.natAbs < n := by
  unfold posRange at h
  simp only [List.mem_map, List.mem_range] at h
  obtain ⟨k, hk, rfl⟩ := h
  omega

theorem mem_symRange {m : ℤ} {n : ℕ} (h : m ∈ symRange n) : m.natAbs < n := by
  unfold symRange at h
  rw [List.mem_append] at h
  rcases h with h | h
  · simp only [List.mem_map, List.mem_range] at h
    obtain ⟨k, hk, rfl⟩ := h
    omega
  · simp only [List.mem_map, List.mem_reverse, List.mem_range] at h
    obtain ⟨k, hk, rfl⟩ := h
    omega

theorem mem_aRange_natAbs {m : ℤ} {n : ℕ} {inm : Bool} (h : m ∈ aRange n inm) :
    m.natAbs < n := by
  unfold aRange at h
  cases inm with
  | true => exact mem_symRange (by simpa using h)
  | false => exact (mem_posRange (by simpa using h)).2

theorem root_natAbs_lt (t : CTree) (n : ℕ) (inm : Bool) :
    ∀ a ∈ t.enum n inm, a.root.natAbs < n := by
  intro a ha
  cases t with
  | A =>
      simp only [CTree.enum, List.mem_map] at ha
      obtain ⟨m, hm, rfl⟩ := ha
      exact mem_aRange_natAbs hm
  | B s =>
      simp only [CTree.enum, List.mem_flatMap, List.mem_map] at ha
      obtain ⟨l, hl, ch, hch, rfl⟩ := ha
      exact (mem_posRange hl).2
  | BP c =>
      simp only [CTree.enum, List.mem_flatMap, List.mem_map] at ha
      obtain ⟨l, hl, ch, hch, rfl⟩ := ha
      exact (mem_posRange hl).2
  | C c s =>
      simp only [CTree.enum, List.mem_flatMap, List.mem_map] at ha
      obtain ⟨l, hl, xc, hxc, xs, hxs, rfl⟩ := ha
      exact (mem_posRange hl).2

theorem Hz_one_val (l : ℕ) : Hz 1 (l : ℤ) = if l = 0 then 1 else 2 := by
  by_cases h2 : l < 2
  · rw [Hz_of_lt_two 1 (show (l : ℤ) < 2 by omega)]
    unfold Mz
    rw [if_neg (show ¬ (l : ℤ) < 0 by omega), Nat.choose_one_right]
    split <;> omega
  · unfold Hz Mz
    rw [if_neg (show ¬ (l : ℤ) < 0 by omega),
      if_neg (show ¬ (l : ℤ) - 2 < 0 by omega), Nat.choose_one_right,
      Nat.choose_one_right, if_neg (show ¬ l = 0 by omega)]
    omega

theorem cnt_A (n l : ℕ) (hl : l < n) :
    cnt CTree.A n true l = if l = 0 then 1 else 2 := by
  unfold cnt
  have he : CTree.A.enum n true = (symRange n).map HIdx.A := rfl
  rw [he, List.countP_map]
  have hc : (symRange n).countP
        ((fun a => flatten_mask_harmonics a && a.root.natAbs == l) ∘ HIdx.A)
      = (symRange n).countP (fun m => m.natAbs == l) := by
    apply List.countP_congr
    intro m _
    simp [flatten_mask_harmonics, HIdx.root]
  rw [hc]
  unfold symRange
  rw [List.countP_append, List.countP_map, List.countP_map, List.countP_reverse]
  have h1 : (List.range n).countP ((fun m => m.natAbs == l) ∘ (Nat.cast : ℕ → ℤ))
      = (List.range n).countP (fun k => k == l) := by
    apply List.countP_congr
    intro k _
    simp only [Function.comp_apply, beq_iff_eq]
    omega
  have h2 : (List.range (n - 1)).countP
        ((fun m => m.natAbs == l) ∘ fun (k : ℕ) => -((k : ℤ) + 1))
      = (List.range (n - 1)).countP (fun k => k + 1 == l) := by
    apply List.countP_congr
    intro k _
    simp only [Function.comp_apply, beq_iff_eq]
    omega
  rw [h1, h2, countP_beq_range n l, if_pos hl]
  by_cases h0 : l = 0
  · subst h0
    have hz : (List.range (n - 1)).countP (fun k => k + 1 == 0) = 0 := by
      rw [List.countP_eq_zero]
      intro k _
      simp
    rw [hz, if_pos rfl]
  · have hone : (List.range (n - 1)).countP (fun k => k + 1 == l)
        = (List.range (n - 1)).countP (fun k => k == l - 1) := by
      apply List.countP_congr
      intro k _
      simp only [beq_iff_eq]
      omega
    rw [hone, countP_beq_range (n - 1) (l - 1), if_pos (by omega), if_neg h0]

theorem bool_eq_of_iff {a b : Bool} (h : a = true ↔ b = true) : a = b := by
  cases a <;> cases b <;> simp_all

theorem countP_mask_le (L : List HIdx) (n : ℕ) (hb : ∀ x ∈ L, x.root.natAbs < n)
    (l : ℕ) (hl : l < n) :
    L.countP (fun x => decide (|x.root| ≤ (l : ℤ)) && flatten_mask_harmonics x)
      = ∑ v ∈ Finset.range (l + 1),
          L.countP (fun x => flatten_mask_harmonics x && x.root.natAbs == v) := by
  rw [countP_partition L _ (fun x => x.root.natAbs) n hb]
  have hpt : ∀ v ∈ Finset.range n,
      L.countP (fun x =>
          (decide (|x.root| ≤ (l : ℤ)) && flatten_mask_harmonics x) && x.root.natAbs == v)
        = (if v ≤ l then
            L.countP (fun x => flatten_mask_harmonics x && x.root.natAbs == v) else 0) := by
    intro v _
    by_cases hvl : v ≤ l
    · rw [if_pos hvl]
      apply List.countP_congr
      intro x _
      simp only [Bool.and_eq_true, decide_eq_true_eq, beq_iff_eq, Int.abs_eq_natAbs]
      constructor
      · rintro ⟨⟨h1, h2⟩, h3⟩
        exact ⟨h2, h3⟩
      · rintro ⟨h2, h3⟩
        exact ⟨⟨by omega, h2⟩, h3⟩
    · rw [if_neg hvl, List.countP_eq_zero]
      intro x _
      simp only [Bool.and_eq_true, decide_eq_true_eq, beq_iff_eq, Int.abs_eq_natAbs, not_and]
      rintro ⟨h1, _⟩ h3
      omega
  rw [Finset.sum_congr rfl hpt, sum_range_if_le
    (fun v => L.countP (fun x => flatten_mask_harmonics x && x.root.natAbs == v)) l n hl]

theorem cnt_B (s : CTree) (n l : ℕ) (hl : l < n) :
    cnt (CTree.B s) n true l = ∑ v ∈ Finset.range (l + 1), cnt s n true v := by
  unfold cnt
  have he : (CTree.B s).enum n true
      = (posRange n).flatMap (fun lr => (s.enum n true).map (HIdx.B lr)) := rfl
  rw [he, countP_flatMap_sum]
  unfold posRange
  rw [List.map_map, list_sum_map_range]
  have hF : ∀ j ∈ Finset.range n,
      ((fun lr => ((s.enum n true).map (HIdx.B lr)).countP
          (fun a => flatten_mask_harmonics a && a.root.natAbs == l)) ∘ (Nat.cast : ℕ → ℤ)) j
        = if j = l then ∑ v ∈ Finset.range (l + 1),
            (s.enum n true).countP (fun x => flatten_mask_harmonics x && x.root.natAbs == v)
          else 0 := by
    intro j hj
    rw [Finset.mem_range] at hj
    simp only [Function.comp_apply, List.countP_map]
    by_cases hjl : j = l
    · subst hjl
      rw [if_pos rfl]
      have hcg : (s.enum n true).countP
            ((fun a => flatten_mask_harmonics a && a.root.natAbs == j) ∘ HIdx.B (j : ℤ))
          = (s.enum n true).countP
              (fun x => decide (|x.root| ≤ (j : ℤ)) && flatten_mask_harmonics x) := by
        apply List.countP_congr
        intro x _
        simp only [Function.comp_apply, flatten_mask_harmonics, HIdx.root, Bool.and_eq_true,
          beq_iff_eq, decide_eq_true_eq]
        constructor
        · rintro ⟨⟨h1, h2⟩, h3⟩
          exact ⟨h1, h2⟩
        · rintro ⟨h1, h2⟩
          exact ⟨⟨h1, h2⟩, by omega⟩
      rw [hcg, countP_mask_le (s.enum n true) n (root_natAbs_lt s n true) j hj]
    · rw [if_neg hjl, List.countP_eq_zero]
      intro x _
      simp only [Function.comp_apply, flatten_mask_harmonics, HIdx.root, Bool.and_eq_true,
        beq_iff_eq, decide_eq_true_eq, not_and]
      rintro ⟨h1, h2⟩
      omega
  rw [Finset.sum_congr rfl hF, Finset.sum_ite_eq' (Finset.range n) l
    (fun _ => ∑ v ∈ Finset.range (l + 1),
      (s.enum n true).countP (fun x => flatten_mask_harmonics x && x.root.natAbs == v)),
    if_pos (Finset.mem_range.mpr hl)]

theorem cnt_BP (c : CTree) (n l : ℕ) (hl : l < n) :
    cnt (CTree.BP c) n true l = ∑ v ∈ Finset.range (l + 1), cnt c n true v := by
  unfold cnt
  have he : (CTree.BP c).enum n true
      = (posRange n).flatMap (fun lr => (c.enum n true).map (HIdx.BP lr)) := rfl
  rw [he, countP_flatMap_sum]
  unfold posRange
  rw [List.map_map, list_sum_map_range]
  have hF : ∀ j ∈ Finset.range n,
      ((fun lr => ((c.enum n true).map (HIdx.BP lr)).countP
          (fun a => flatten_mask_harmonics a && a.root.natAbs == l)) ∘ (Nat.cast : ℕ → ℤ)) j
        = if j = l then ∑ v ∈ Finset.range (l + 1),
            (c.enum n true).countP (fun x => flatten_mask_harmonics x && x.root.natAbs == v)
          else 0 := by
    intro j hj
    rw [Finset.mem_range] at hj
    simp only [Function.comp_apply, List.countP_map]
    by_cases hjl : j = l
    · subst hjl
      rw [if_pos rfl]
      have hcg : (c.enum n true).countP
            ((fun a => flatten_mask_harmonics a && a.root.natAbs == j) ∘ HIdx.BP (j : ℤ))
          = (c.enum n true).countP
              (fun x => decide (|x.root| ≤ (j : ℤ)) && flatten_mask_harmonics x) := by
        apply List.countP_congr
        intro x _
        simp only [Function.comp_apply, flatten_mask_harmonics, HIdx.root, Bool.and_eq_true,
          beq_iff_eq, decide_eq_true_eq]
        constructor
        · rintro ⟨⟨h1, h2⟩, h3⟩
          exact ⟨h1, h2⟩
        · rintro ⟨h1, h2⟩
          exact ⟨⟨h1, h2⟩, by omega⟩
      rw [hcg, countP_mask_le (c.enum n true) n (root_natAbs_lt c n true) j hj]
    · rw [if_neg hjl, List.countP_eq_zero]
      intro x _
      simp only [Function.comp_apply, flatten_mask_harmonics, HIdx.root, Bool.and_eq_true,
        beq_iff_eq, decide_eq_true_eq, not_and]
      rintro ⟨h1, h2⟩
      omega
  rw [Finset.sum_congr rfl hF, Finset.sum_ite_eq' (Finset.range n) l
    (fun _ => ∑ v ∈ Finset.range (l + 1),
      (c.enum n true).countP (fun x => flatten_mask_harmonics x && x.root.natAbs == v)),
    if_pos (Finset.mem_range.mpr hl)]

/-- Absolute cos-child root index of a type-C joint index point. -/
def cosKey : HIdx → ℕ
  | .C _ xc _ => xc.root.natAbs
  | _ => 0

/-- Absolute sin-child root index of a type-C joint index point. -/
def sinKey : HIdx → ℕ
  | .C _ _ xs => xs.root.natAbs
  | _ => 0

theorem countP_pairs (c s : CTree) (n : ℕ) (l : ℕ) (hl : l < n) :
    ((c.enum n true).flatMap (fun xc =>
        (s.enum n true).map (fun xs => HIdx.C (l : ℤ) xc xs))).countP
      (fun a => flatten_mask_harmonics a && a.root.natAbs == l)
    = ∑ v1 ∈ Finset.range n, ∑ v2 ∈ Finset.range n,
        (if v1 + v2 ≤ l ∧ (l - (v1 + v2)) % 2 = 0
          then cnt c n true v1 * cnt s n true v2 else 0) := by
  have hb1 : ∀ z ∈ (c.enum n true).flatMap (fun xc =>
      (s.enum n true).map (fun xs => HIdx.C (l : ℤ) xc xs)), cosKey z < n := by
    intro z hz
    simp only [List.mem_flatMap, List.mem_map] at hz
    obtain ⟨xc, hxc, xs, hxs, rfl⟩ := hz
    exact root_natAbs_lt c n true xc hxc
  rw [countP_partition _ _ cosKey n hb1]
  apply Finset.sum_congr rfl
  intro v1 hv1
  have hb2 : ∀ z ∈ (c.enum n true).flatMap (fun xc =>
      (s.enum n true).map (fun xs => HIdx.C (l : ℤ) xc xs)), sinKey z < n := by
    intro z hz
    simp only [List.mem_flatMap, List.mem_map] at hz
    obtain ⟨xc, hxc, xs, hxs, rfl⟩ := hz
    exact root_natAbs_lt s n true xs hxs
  rw [countP_partition _ _ sinKey n hb2]
  apply Finset.sum_congr rfl
  intro v2 hv2
  rw [Finset.mem_range] at hv1 hv2
  by_cases hcond : v1 + v2 ≤ l ∧ (l - (v1 + v2)) % 2 = 0
  · rw [if_pos hcond]
    have hfac := countP_flatMap_map_mul (c.enum n true) (s.enum n true)
      (fun xc xs => HIdx.C (l : ℤ) xc xs)
      (fun z => ((flatten_mask_harmonics z && z.root.natAbs == l) && cosKey z == v1)
        && sinKey z == v2)
      (fun xc => flatten_mask_harmonics xc && xc.root.natAbs == v1)
      (fun xs => flatten_mask_harmonics xs && xs.root.natAbs == v2)
      (by
        intro xc hxc xs hxs
        apply bool_eq_of_iff
        simp only [flatten_mask_harmonics, HIdx.root, cosKey, sinKey, Bool.and_eq_true,
          decide_eq_true_eq, beq_iff_eq, Int.abs_eq_natAbs]
        constructor
        · rintro ⟨⟨⟨⟨hpar, hmc, hms⟩, hll⟩, h1⟩, h2⟩
          exact ⟨⟨hmc, h1⟩, hms, h2⟩
        · rintro ⟨⟨hmc, h1⟩, hms, h2⟩
          refine ⟨⟨⟨⟨⟨?_, ?_⟩, hmc, hms⟩, ?_⟩, h1⟩, h2⟩
          · omega
          · omega
          · omega)
    rw [hfac]
    rfl
  · rw [if_neg hcond, List.countP_eq_zero]
    intro z hz
    simp only [List.mem_flatMap, List.mem_map] at hz
    obtain ⟨xc, hxc, xs, hxs, rfl⟩ := hz
    simp only [flatten_mask_harmonics, HIdx.root, cosKey, sinKey, Bool.and_eq_true,
      decide_eq_true_eq, beq_iff_eq, Int.abs_eq_natAbs, not_and]
    rintro ⟨⟨⟨hpar, hmc, hms⟩, hll⟩, h1⟩
    intro h2
    omega

theorem cnt_C (c s : CTree) (n l : ℕ) (hl : l < n) :
    cnt (CTree.C c s) n true l
      = ∑ v1 ∈ Finset.range n, ∑ v2 ∈ Finset.range n,
          (if v1 + v2 ≤ l ∧ (l - (v1 + v2)) % 2 = 0
            then cnt c n true v1 * cnt s n true v2 else 0) := by
  unfold cnt
  have he : (CTree.C c s).enum n true
      = (posRange n).flatMap (fun lr =>
          (c.enum n true).flatMap (fun xc =>
            (s.enum n true).map (fun xs => HIdx.C lr xc xs))) := rfl
  rw [he, countP_flatMap_sum]
  unfold posRange
  rw [List.map_map, list_sum_map_range]
  have hF : ∀ j ∈ Finset.range n,
      ((fun lr => ((c.enum n true).flatMap (fun xc =>
            (s.enum n true).map (fun xs => HIdx.C lr xc xs))).countP
          (fun a => flatten_mask_harmonics a && a.root.natAbs == l)) ∘ (Nat.cast : ℕ → ℤ)) j
        = if j = l then
            ∑ v1 ∈ Finset.range n, ∑ v2 ∈ Finset.range n,
              (if v1 + v2 ≤ l ∧ (l - (v1 + v2)) % 2 = 0
                then cnt c n true v1 * cnt s n true v2 else 0)
          else 0 := by
    intro j hj
    rw [Finset.mem_range] at hj
    simp only [Function.comp_apply]
    by_cases hjl : j = l
    · subst hjl
      rw [if_pos rfl, countP_pairs c s n j hj]
    · rw [if_neg hjl, List.countP_eq_zero]
      intro z hz
      simp only [List.mem_flatMap, List.mem_map] at hz
      obtain ⟨xc, hxc, xs, hxs, rfl⟩ := hz
      simp only [flatten_mask_harmonics, HIdx.root, Bool.and_eq_true, decide_eq_true_eq,
        beq_iff_eq, not_and]
      rintro ⟨hmask, hll⟩
      omega
  rw [Finset.sum_congr rfl hF, Finset.sum_ite_eq' (Finset.range n) l
    (fun _ => ∑ v1 ∈ Finset.range n, ∑ v2 ∈ Finset.range n,
      (if v1 + v2 ≤ l ∧ (l - (v1 + v2)) % 2 = 0
        then cnt c n true v1 * cnt s n true v2 else 0)),
    if_pos (Finset.mem_range.mpr hl)]
  rfl

/-- The per-absolute-root-degree count of valid joint indices equals the model
dimension `Hz` of the harmonics of that degree. -/
theorem cnt_cast (t : CTree) : ∀ (n l : ℕ), l < n →
    (cnt t n true l : ℤ) = Hz t.ndim (l : ℤ) := by
  induction t with
  | A =>
      intro n l hl
      rw [cnt_A n l hl, show CTree.A.ndim = 1 from rfl, Hz_one_val l]
      split <;> norm_num
  | B s ihs =>
      intro n l hl
      rw [cnt_B s n l hl]
      push_cast
      rw [Finset.sum_congr rfl
        (fun v hv => ihs n v (by rw [Finset.mem_range] at hv; omega)),
        Hz_sum_range_succ s.ndim l]
      rfl
  | BP c ihc =>
      intro n l hl
      rw [cnt_BP c n l hl]
      push_cast
      rw [Finset.sum_congr rfl
        (fun v hv => ihc n v (by rw [Finset.mem_range] at hv; omega)),
        Hz_sum_range_succ c.ndim l]
      rfl
  | C c s ihc ihs =>
      intro n l hl
      rw [cnt_C c s n l hl]
      push_cast
      have hpt : ∀ v1 ∈ Finset.range n,
          (∑ v2 ∈ Finset.range n, (if v1 + v2 ≤ l ∧ (l - (v1 + v2)) % 2 = 0
            then (cnt c n true v1 : ℤ) * (cnt s n true v2 : ℤ) else 0))
          = ∑ v2 ∈ Finset.range n, (if v1 + v2 ≤ l ∧ (l - (v1 + v2)) % 2 = 0
            then Hz c.ndim (v1 : ℤ) * Hz s.ndim (v2 : ℤ) else 0) := by
        intro v1 hv1
        rw [Finset.mem_range] at hv1
        apply Finset.sum_congr rfl
        intro v2 hv2
        rw [Finset.mem_range] at hv2
        by_cases hcond : v1 + v2 ≤ l ∧ (l - (v1 + v2)) % 2 = 0
        · rw [if_pos hcond, if_pos hcond, ihc n v1 hv1, ihs n v2 hv2]
        · rw [if_neg hcond, if_neg hcond]
      rw [Finset.sum_congr rfl hpt, Hz_parity_conv c.ndim s.ndim l n hl]
      rfl

/-- The number of `True` positions of the validity mask equals the closed-form
dimension formula of `_ndim.py`. -/
theorem mask_count (t : CTree) (n : ℕ) :
    (t.enum n true).countP flatten_mask_harmonics = harm_n_ndim_le n (t.ndim + 1) := by
  have hcast : (((t.enum n true).countP flatten_mask_harmonics : ℕ) : ℤ)
      = (harm_n_ndim_le n (t.ndim + 1) : ℤ) := by
    rw [countP_partition (t.enum n true) flatten_mask_harmonics (fun x => x.root.natAbs) n
      (root_natAbs_lt t n true), harm_le_cast n t.ndim]
    push_cast
    apply Finset.sum_congr rfl
    intro v hv
    rw [Finset.mem_range] at hv
    exact cnt_cast t n v hv
  exact_mod_cast hcast

/-- The valid (masked) joint index points, in the fixed row-major scan order. -/
def validList (t : CTree) (n : ℕ) (inm : Bool) : List HIdx :=
  (t.enum n inm).filter flatten_mask_harmonics

/-- Embedded from `_flatten.py::flatten_harmonics` with `n_end` and
`include_negative_m` supplied: select exactly the mask's True positions along the
trailing joint axes, in row-major order.  A tensor whose trailing axes match the
joint index space is modelled as a function on `HIdx`. -/
def flatten_harmonics {α : Type} (t : CTree) (n : ℕ) (inm : Bool) (x : HIdx → α) :
    List α :=
  (validList t n inm).map x

/-- Embedded from `_assume.py::assume_n_end_and_include_negative_m_from_harmonics`
(`flatten=True` branch): starting from `n_end = 0`, return `(n_end, True)` as soon
as `harm_n_ndim_le n_end c_ndim == size`, raise (`none`) as soon as it exceeds
`size`, else increment.  The source's unbounded `while True` is given fuel; every
terminating run of the source is reproduced with fuel `size + 2`. -/
def assumeLoop (c_ndim size : ℕ) : ℕ → ℕ → Option (ℕ × Bool)
  | 0, _ => none
  | fuel + 1, cur =>
    if harm_n_ndim_le cur c_ndim = size then some (cur, true)
    else if size < harm_n_ndim_le cur c_ndim then none
    else assumeLoop c_ndim size fuel (cur + 1)

/-- `assume_n_end_and_include_negative_m_from_harmonics(c, arr, flatten=True)`:
infer `n_end` from the flattened length; `include_negative_m` is always `True`. -/
def assume_from_flattened (c_ndim size : ℕ) : Option (ℕ × Bool) :=
  assumeLoop c_ndim size (size + 2) 0

/-- `assume_n_end_and_include_negative_m_from_harmonics(c, arr, flatten=False)`:
from the trailing joint-axis sizes, `n_end = (max(sizes) + 1) // 2` and
`include_negative_m = not all(size == n_end)`. -/
def assume_from_sizes (sizes : List ℕ) : ℕ × Bool :=
  ((sizes.foldr max 0 + 1) / 2,
    ! sizes.all (fun s => s == (sizes.foldr max 0 + 1) / 2))

/-- Embedded from `_flatten.py::unflatten_harmonics`: infer `n_end` from the
flattened length, then scatter the flattened entries into a zero tensor of the
joint shape at the mask's True positions (`result[..., mask] = harmonics`); a
length mismatch in that assignment raises. -/
def unflatten_harmonics {α : Type} [Zero α] (t : CTree) (inm : Bool) (ys : List α) :
    Except String (HIdx → α) :=
  match assume_from_flattened (t.ndim + 1) ys.length with
  | none => Except.error "The size of the last axis does not correspond to any n_end."
  | some (n_end, _) =>
    if ys.length = (validList t n_end inm).length then
      Except.ok (fun a => if a ∈ validList t n_end inm
        then ys.getD ((validList t n_end inm).indexOf a) 0 else 0)
    else Except.error "cannot assign input values to the output values where the mask is true"

/-- The trailing joint-axis sizes of an unflattened tensor, node before cos-subtree
before sin-subtree. -/
def jointSizes : CTree → ℕ → Bool → List ℕ
  | .A, n, inm => [(aRange n inm).length]
  | .B s, n, inm => n :: jointSizes s n inm
  | .BP c, n, inm => n :: jointSizes c n inm
  | .C c s, n, inm => n :: (jointSizes c n inm ++ jointSizes s n inm)

/-- `flatten_harmonics` with `n_end` and `include_negative_m` inferred from the
trailing shape of the input (the source's default-`None` path). -/
def flatten_harmonics_infer {α : Type} (t : CTree) (sizes : List ℕ) (x : HIdx → α) :
    List α :=
  flatten_harmonics t (assume_from_sizes sizes).1 (assume_from_sizes sizes).2 x

theorem valid_length (t : CTree) (n : ℕ) :
    (validList t n true).length = harm_n_ndim_le n (t.ndim + 1) := by
  unfold validList
  rw [← List.countP_eq_length_filter]
  exact mask_count t n

theorem harm_le_lt (e : ℕ) (he : 1 ≤ e) {k m : ℕ} (h : k < m) :
    harm_n_ndim_le k (e + 1) < harm_n_ndim_le m (e + 1) := by
  have h1 := harm_le_strict e he k
  have h2 := harm_le_mono e (show k + 1 ≤ m by omega)
  omega

theorem assumeLoop_finds (c_ndim size m : ℕ)
    (hm : harm_n_ndim_le m c_ndim = size)
    (hleast : ∀ k < m, harm_n_ndim_le k c_ndim < size) :
    ∀ fuel cur, cur ≤ m → m + 1 ≤ cur + fuel →
      assumeLoop c_ndim size fuel cur = some (m, true) := by
  intro fuel
  induction fuel with
  | zero =>
      intro cur h1 h2
      omega
  | succ fuel ih =>
      intro cur h1 h2
      unfold assumeLoop
      by_cases hc : cur = m
      · subst hc
        rw [if_pos hm]
      · have hlt : harm_n_ndim_le cur c_ndim < size := hleast cur (by omega)
        rw [if_neg (by omega), if_neg (by omega)]
        exact ih (cur + 1) (by omega) (by omega)

theorem assume_from_flattened_harm_le (e n : ℕ) (he : 1 ≤ e) :
    assume_from_flattened (e + 1) (harm_n_ndim_le n (e + 1)) = some (n, true) := by
  apply assumeLoop_finds (e + 1) _ n rfl
    (fun k hk => harm_le_lt e he hk) _ 0 (by omega)
  have := harm_le_ge_self e he n
  omega

theorem harm_le_one (n : ℕ) : harm_n_ndim_le n 1 = min n 2 := by
  match n with
  | 0 => decide
  | 1 => decide
  | (k + 2) =>
      unfold harm_n_ndim_le
      rw [if_neg (by omega), if_neg (by omega)]
      unfold harm_n_ndim_eq
      rw [if_neg (by norm_num), if_neg (by norm_num), if_neg (by omega)]
      omega

theorem symRange_nodup (n : ℕ) : (symRange n).Nodup := by
  unfold symRange
  apply List.Nodup.append
  · exact (List.nodup_range n).map (fun a b h => by exact_mod_cast h)
  · apply List.Nodup.map
    · intro a b hab
      simp only at hab
      omega
    · exact List.nodup_reverse.mpr (List.nodup_range (n - 1))
  · intro m h1 h2
    simp only [List.mem_map, List.mem_range, List.mem_reverse] at h1 h2
    obtain ⟨k1, _, rfl⟩ := h1
    obtain ⟨k2, _, he⟩ := h2
    omega

theorem posRange_nodup (n : ℕ) : (posRange n).Nodup := by
  unfold posRange
  exact (List.nodup_range n).map (fun a b h => by exact_mod_cast h)

theorem aRange_nodup (n : ℕ) (inm : Bool) : (aRange n inm).Nodup := by
  unfold aRange
  cases inm
  · simpa using posRange_nodup n
  · simpa using symRange_nodup n

theorem enum_nodup (t : CTree) (n : ℕ) (inm : Bool) : (t.enum n inm).Nodup := by
  induction t with
  | A =>
      exact (aRange_nodup n inm).map (fun a b h => by injection h)
  | B s ihs =>
      apply List.nodup_flatMap.mpr
      refine ⟨fun l _ => ihs.map (fun a b h => by injection h), ?_⟩
      apply List.Pairwise.imp ?_ ((posRange_nodup n) : (posRange n).Pairwise (· ≠ ·))
      intro a b hab
      intro z hza hzb
      simp only [List.mem_map] at hza hzb
      obtain ⟨x1, _, rfl⟩ := hza
      obtain ⟨x2, _, he⟩ := hzb
      injection he with h1 h2
      exact hab h1.symm
  | BP c ihc =>
      apply List.nodup_flatMap.mpr
      refine ⟨fun l _ => ihc.map (fun a b h => by injection h), ?_⟩
      apply List.Pairwise.imp ?_ ((posRange_nodup n) : (posRange n).Pairwise (· ≠ ·))
      intro a b hab
      intro z hza hzb
      simp only [List.mem_map] at hza hzb
      obtain ⟨x1, _, rfl⟩ := hza
      obtain ⟨x2, _, he⟩ := hzb
      injection he with h1 h2
      exact hab h1.symm
  | C c s ihc ihs =>
      apply List.nodup_flatMap.mpr
      constructor
      · intro l _
        apply List.nodup_flatMap.mpr
        refine ⟨fun xc _ => ihs.map (fun a b h => by injection h), ?_⟩
        apply List.Pairwise.imp ?_ (ihc : (c.enum n inm).Pairwise (· ≠ ·))
        intro a b hab
        intro z hza hzb
        simp only [List.mem_map] at hza hzb
        obtain ⟨x1, _, rfl⟩ := hza
        obtain ⟨x2, _, he⟩ := hzb
        injection he with h1 h2 h3
        exact hab h2.symm
      · apply List.Pairwise.imp ?_ ((posRange_nodup n) : (posRange n).Pairwise (· ≠ ·))
        intro a b hab
        intro z hza hzb
        simp only [List.mem_flatMap, List.mem_map] at hza hzb
        obtain ⟨x1, _, y1, _, rfl⟩ := hza
        obtain ⟨x2, _, y2, _, he⟩ := hzb
        injection he with h1 h2 h3
        exact hab h1.symm

theorem validList_nodup (t : CTree) (n : ℕ) (inm : Bool) : (validList t n inm).Nodup :=
  (enum_nodup t n inm).filter flatten_mask_harmonics

theorem getD_of_lt {α : Type} (l : List α) (i : ℕ) (d : α) (h : i < l.length) :
    l.getD i d = l[i] := by
  rw [List.getD_eq_getElem?_getD, List.getElem?_eq_getElem h]
  rfl

theorem ndim_pos (t : CTree) : 1 ≤ t.ndim := by
  cases t <;> unfold CTree.ndim <;> omega

theorem unflatten_of_harm_le_len {α : Type} [Zero α] (t : CTree) (n : ℕ) (ys : List α)
    (hlen : ys.length = harm_n_ndim_le n (t.ndim + 1)) :
    unflatten_harmonics t true ys
      = Except.ok (fun a => if a ∈ validList t n true
          then ys.getD ((validList t n true).indexOf a) 0 else 0) := by
  have ha : assume_from_flattened (t.ndim + 1) ys.length = some (n, true) := by
    rw [hlen]
    exact assume_from_flattened_harm_le t.ndim n (ndim_pos t)
  unfold unflatten_harmonics
  rw [ha]
  show (if ys.length = (validList t n true).length then
      Except.ok (fun a => if a ∈ validList t n true
        then ys.getD ((validList t n true).indexOf a) 0 else 0)
    else Except.error
      "cannot assign input values to the output values where the mask is true")
    = Except.ok (fun a => if a ∈ validList t n true
        then ys.getD ((validList t n true).indexOf a) 0 else 0)
  rw [if_pos (by rw [hlen, valid_length])]

theorem map_scatter {α : Type} [Zero α] (t : CTree) (n : ℕ) (ys : List α)
    (hlen : ys.length = (validList t n true).length) :
    (validList t n true).map (fun a => if a ∈ validList t n true
      then ys.getD ((validList t n true).indexOf a) 0 else 0) = ys := by
  apply List.ext_getElem
  · rw [List.length_map]
    omega
  · intro k h1 h2
    rw [List.getElem_map]
    have hk : k < (validList t n true).length := by
      rw [List.length_map] at h1
      exact h1
    have hmem : (validList t n true)[k] ∈ validList t n true := List.getElem_mem hk
    rw [if_pos hmem]
    have hlt : (validList t n true).indexOf ((validList t n true)[k])
        < (validList t n true).length := List.indexOf_lt_length.mpr hmem
    have hidx : (validList t n true).indexOf ((validList t n true)[k]) = k := by
      have hg := List.getElem_indexOf hlt
      exact ((validList_nodup t n true).getElem_inj_iff).mp hg
    rw [hidx, getD_of_lt _ _ _ h2]

theorem enum_eq_of_le_one (t : CTree) (n : ℕ) (hn : n ≤ 1) (b1 b2 : Bool) :
    t.enum n b1 = t.enum n b2 := by
  have hr : aRange n b1 = aRange n b2 := by
    match n, hn with
    | 0, _ => cases b1 <;> cases b2 <;> rfl
    | 1, _ => cases b1 <;> cases b2 <;> rfl
  induction t with
  | A => simp only [CTree.enum, hr]
  | B s ihs => simp only [CTree.enum, ihs]
  | BP c ihc => simp only [CTree.enum, ihc]
  | C c s ihc ihs => simp only [CTree.enum, ihc, ihs]

theorem foldr_max_le (L : List ℕ) (m : ℕ) (h : ∀ x ∈ L, x ≤ m) : L.foldr max 0 ≤ m := by
  induction L with
  | nil => simp
  | cons a L ih =>
      simp only [List.foldr_cons]
      exact max_le (h a (List.mem_cons_self a L))
        (ih fun x hx => h x (List.mem_cons_of_mem a hx))

theorem le_foldr_max (L : List ℕ) (m : ℕ) (h : m ∈ L) : m ≤ L.foldr max 0 := by
  induction L with
  | nil => cases h
  | cons a L ih =>
      simp only [List.foldr_cons]
      rcases List.mem_cons.mp h with rfl | h2
      · exact le_max_left _ _
      · exact le_trans (ih h2) (le_max_right _ _)

theorem symRange_length (n : ℕ) : (symRange n).length = n + (n - 1) := by
  unfold symRange
  simp

theorem jointSizes_mem (t : CTree) (n : ℕ) :
    ∀ x ∈ jointSizes t n true, x = n ∨ x = n + (n - 1) := by
  induction t with
  | A =>
      intro x hx
      unfold jointSizes at hx
      have hx0 : x = (aRange n true).length := by simpa using hx
      right
      rw [hx0]
      have : aRange n true = symRange n := rfl
      rw [this, symRange_length]
  | B s ihs =>
      intro x hx
      unfold jointSizes at hx
      rcases List.mem_cons.mp hx with rfl | h2
      · left; rfl
      · exact ihs x h2
  | BP c ihc =>
      intro x hx
      unfold jointSizes at hx
      rcases List.mem_cons.mp hx with rfl | h2
      · left; rfl
      · exact ihc x h2
  | C c s ihc ihs =>
      intro x hx
      unfold jointSizes at hx
      rcases List.mem_cons.mp hx with rfl | h2
      · left; rfl
      · rcases List.mem_append.mp h2 with h3 | h3
        · exact ihc x h3
        · exact ihs x h3

theorem jointSizes_sym_mem (t : CTree) (n : ℕ) : (n + (n - 1)) ∈ jointSizes t n true := by
  induction t with
  | A =>
      unfold jointSizes
      have : aRange n true = symRange n := rfl
      rw [this, symRange_length]
      exact List.mem_singleton.mpr rfl
  | B s ihs => exact List.mem_cons_of_mem _ ihs
  | BP c ihc => exact List.mem_cons_of_mem _ ihc
  | C c s ihc ihs => exact List.mem_cons_of_mem _ (List.mem_append.mpr (Or.inl ihc))

theorem foldr_max_jointSizes (t : CTree) (n : ℕ) :
    (jointSizes t n true).foldr max 0 = n + (n - 1) := by
  apply le_antisymm
  · apply foldr_max_le
    intro x hx
    rcases jointSizes_mem t n x hx with rfl | rfl <;> omega
  · exact le_foldr_max _ _ (jointSizes_sym_mem t n)

theorem assume_from_sizes_joint (t : CTree) (n : ℕ) (hn : 2 ≤ n) :
    assume_from_sizes (jointSizes t n true) = (n, true) := by
  unfold assume_from_sizes
  rw [foldr_max_jointSizes]
  have hdiv : (n + (n - 1) + 1) / 2 = n := by omega
  rw [hdiv]
  have hall : (jointSizes t n true).all (fun s => s == n) = false := by
    rw [List.all_eq_false]
    refine ⟨n + (n - 1), jointSizes_sym_mem t n, ?_⟩
    simp only [beq_iff_eq]
    omega
  rw [hall]
  rfl

theorem assume_from_sizes_joint_small (t : CTree) (n : ℕ) (hn : n ≤ 1) :
    assume_from_sizes (jointSizes t n true) = (n, false) := by
  unfold assume_from_sizes
  rw [foldr_max_jointSizes]
  have hdiv : (n + (n - 1) + 1) / 2 = n := by omega
  rw [hdiv]
  have hall : (jointSizes t n true).all (fun s => s == n) = true := by
    rw [List.all_eq_true]
    intro x hx
    rcases jointSizes_mem t n x hx with rfl | rfl
    · simp
    · simp only [beq_iff_eq]
      omega
  rw [hall]
  rfl

theorem validList_infer (t : CTree) (n : ℕ) :
    validList t (assume_from_sizes (jointSizes t n true)).1
        (assume_from_sizes (jointSizes t n true)).2
      = validList t n true := by
  by_cases hn : 2 ≤ n
  · rw [assume_from_sizes_joint t n hn]
  · rw [assume_from_sizes_joint_small t n (by omega)]
    unfold validList
    rw [enum_eq_of_le_one t n (by omega) false true]

/-- Round trip part one: scattering the flattened tensor back restores every masked
position. -/
theorem unflatten_flatten_eq {α : Type} [Zero α] (t : CTree) (n : ℕ) (x : HIdx → α)
    (a : HIdx) (ha : a ∈ t.enum n true) (hm : flatten_mask_harmonics a = true) :
    ∃ u, unflatten_harmonics t true (flatten_harmonics t n true x) = Except.ok u
      ∧ u a = x a := by
  have hlen : (flatten_harmonics t n true x).length = harm_n_ndim_le n (t.ndim + 1) := by
    unfold flatten_harmonics
    rw [List.length_map, valid_length]
  refine ⟨_, unflatten_of_harm_le_len t n _ hlen, ?_⟩
  have hav : a ∈ validList t n true := List.mem_filter.mpr ⟨ha, hm⟩
  rw [if_pos hav]
  have hidx : (validList t n true).indexOf a < (validList t n true).length :=
    List.indexOf_lt_length.mpr hav
  have hidx2 : (validList t n true).indexOf a < (flatten_harmonics t n true x).length := by
    unfold flatten_harmonics
    rw [List.length_map]
    exact hidx
  rw [getD_of_lt _ _ _ hidx2]
  show (List.map x (validList t n true)).get
    ⟨(validList t n true).indexOf a, by simpa [flatten_harmonics] using hidx2⟩ = x a
  rw [List.get_eq_getElem, List.getElem_map, List.getElem_indexOf hidx]

/-- Round trip part two: flattening the scattered tensor (with shape inference)
restores the flattened list. -/
theorem flatten_unflatten_eq {α : Type} [Zero α] (t : CTree) (n : ℕ) (ys : List α)
    (hlen : ys.length = harm_n_ndim_le n (t.ndim + 1)) :
    ∃ u, unflatten_harmonics t true ys = Except.ok u
      ∧ flatten_harmonics_infer t (jointSizes t n true) u = ys := by
  refine ⟨_, unflatten_of_harm_le_len t n ys hlen, ?_⟩
  unfold flatten_harmonics_infer flatten_harmonics
  rw [validList_infer t n]
  exact map_scatter t n ys (by rw [hlen, valid_length])

/-- Embedded from `_eigenfunction.py::minus_1_power`: `1 - 2 * (x % 2)`, i.e.
`(-1)^x`; Python `%` on integers agrees with `Int.emod`. -/
def minus_1_power (x : ℤ) : ℤ := 1 - 2 * (x % 2)

/-- The two flags of `_eigenfunction.py::Phase`. -/
structure Phase where
  condonShortley : Bool
  negativeLegendre : Bool
deriving DecidableEq, Repr

/-- The per-order value `exp(i m θ) / sqrt(2 π)` computed by `type_a` before the
phase adjustment. -/
noncomputable def typeABase (θ : ℝ) (m : ℤ) : ℂ :=
  Complex.exp (Complex.I * (m : ℂ) * (θ : ℂ)) / (Real.sqrt (2 * Real.pi) : ℂ)

/-- The phase factor applied by `type_a` at order `m`, following the source's four
branches on the `Phase` flags. -/
def typeAPhase (ph : Phase) (m : ℤ) : ℤ :=
  if ph.condonShortley then
    (if ph.negativeLegendre then minus_1_power ((|m| + m) / 2) else minus_1_power m)
  else
    (if ph.negativeLegendre then minus_1_power ((|m| - m) / 2) else 1)

/-- The value of the type-A eigenfunction at order `m`. -/
noncomputable def typeAVal (θ : ℝ) (ph : Phase) (m : ℤ) : ℂ :=
  typeABase θ m * (typeAPhase ph m : ℂ)

/-- Embedded from `_eigenfunction.py::type_a`: the values along the trailing order
axis, which is `arange(0, n_end)`, extended by `to_symmetric(asymmetric=True)` when
`include_negative_m` is set. -/
noncomputable def type_a (θ : ℝ) (n_end : ℕ) (ph : Phase) (inm : Bool) : List ℂ :=
  (aRange n_end inm).map (typeAVal θ ph)

theorem m1p_mul (a b : ℤ) : minus_1_power a * minus_1_power b = minus_1_power (a + b) := by
  unfold minus_1_power
  have ha : a % 2 = 0 ∨ a % 2 = 1 := by omega
  have hb : b % 2 = 0 ∨ b % 2 = 1 := by omega
  rcases ha with ha | ha <;> rcases hb with hb | hb <;> rw [ha, hb] <;>
    (first
      | (have hab : (a + b) % 2 = 0 := by omega
         rw [hab]; ring)
      | (have hab : (a + b) % 2 = 1 := by omega
         rw [hab]; ring))

theorem m1p_congr {a b : ℤ} (h : a % 2 = b % 2) : minus_1_power a = minus_1_power b := by
  unfold minus_1_power
  rw [h]

theorem m1p_cast (m : ℤ) : ((minus_1_power m : ℤ) : ℂ) = (-1 : ℂ) ^ m := by
  have h2 : m % 2 = 0 ∨ m % 2 = 1 := by omega
  rcases h2 with h | h
  · unfold minus_1_power
    rw [h]
    norm_num
    exact (Even.neg_one_zpow (Int.even_iff.mpr h)).symm
  · unfold minus_1_power
    rw [h]
    norm_num
    exact (Odd.neg_one_zpow (Int.odd_iff.mpr h)).symm

theorem typeABase_conj (θ : ℝ) (m : ℤ) :
    typeABase θ (-m) = (starRingEnd ℂ) (typeABase θ m) := by
  unfold typeABase
  rw [map_div₀, ← Complex.exp_conj, Complex.conj_ofReal]
  congr 2
  simp only [map_mul, Complex.conj_I, Complex.conj_ofReal, map_intCast]
  push_cast
  ring

theorem typeAPhase_cs (nl : Bool) (m : ℤ) :
    typeAPhase ⟨true, nl⟩ m = minus_1_power m * typeAPhase ⟨false, nl⟩ m := by
  unfold typeAPhase
  cases nl with
  | false => simp [mul_one]
  | true =>
      show minus_1_power ((|m| + m) / 2) = minus_1_power m * minus_1_power ((|m| - m) / 2)
      rw [m1p_mul]
      apply m1p_congr
      rcases le_or_lt 0 m with hm | hm
      · rw [abs_of_nonneg hm]
        omega
      · rw [abs_of_neg hm]
        omega

theorem typeAPhase_neg_false (cs : Bool) (m : ℤ) :
    typeAPhase ⟨cs, false⟩ (-m) = typeAPhase ⟨cs, false⟩ m := by
  unfold typeAPhase
  cases cs with
  | false => rfl
  | true =>
      simp only [if_true, if_false]
      apply m1p_congr
      omega

theorem typeAPhase_neg_true (cs : Bool) (m : ℤ) :
    typeAPhase ⟨cs, true⟩ (-m) = minus_1_power m * typeAPhase ⟨cs, true⟩ m := by
  unfold typeAPhase
  cases cs with
  | false =>
      show minus_1_power ((|(-m)| - -m) / 2) = minus_1_power m * minus_1_power ((|m| - m) / 2)
      rw [m1p_mul]
      apply m1p_congr
      rcases le_or_lt 0 m with hm | hm
      · rw [abs_neg, abs_of_nonneg hm]
        omega
      · rw [abs_neg, abs_of_neg hm]
        omega
  | true =>
      show minus_1_power ((|(-m)| + -m) / 2) = minus_1_power m * minus_1_power ((|m| + m) / 2)
      rw [m1p_mul]
      apply m1p_congr
      rcases le_or_lt 0 m with hm | hm
      · rw [abs_neg, abs_of_nonneg hm]
        omega
      · rw [abs_neg, abs_of_neg hm]
        omega

/-- The closed-form entry of the type-C eigenfunction at surrogate order `n` and
offsets `l_alpha` (cos) and `l_beta` (sin), embedded from `_eigenfunction.py::type_c`
with abstract Jacobi primitives `Nc` (`jacobi_normalization_constant`, called with
`(alpha, beta)` in that order) and `Pj` (`jacobi_all`, called with the arguments
swapped to `(beta, alpha)` as in the source). -/
noncomputable def type_c_surrogate (Nc : ℝ → ℝ → ℕ → ℝ) (Pj : ℝ → ℝ → ℕ → ℝ → ℝ)
    (θ sa sb : ℝ) (la lb n : ℕ) : ℝ :=
  (2 : ℝ) ^ ((((la : ℝ) + sa / 2) + ((lb : ℝ) + sb / 2)) / 2 + 1)
    * Nc ((la : ℝ) + sa / 2) ((lb : ℝ) + sb / 2) n
    * Real.sin θ ^ lb * Real.cos θ ^ la
    * Pj ((lb : ℝ) + sb / 2) ((la : ℝ) + sa / 2) n (Real.cos (2 * θ))

/-- Stage one of the physical reindexing of `type_c`: interleave each surrogate-order
row with zeros (`res_expaneded[..., ::2] = res`). -/
noncomputable def typeCStage1 (surr : ℕ → ℕ → ℕ → ℝ) (la lb k : ℕ) : ℝ :=
  if k % 2 = 0 then surr la lb (k / 2) else 0

/-- Modelled from `shift_nth_row_n_steps` (row axis `-3`, shift axis `-1`,
`cut_padding=True`): `output[la, lb, k] = input[la, lb, k - la]` when
`0 ≤ k - la < n_end`, else the fill value. -/
noncomputable def typeCStage2 (fill : ℝ) (n_end : ℕ) (x : ℕ → ℕ → ℕ → ℝ)
    (la lb k : ℕ) : ℝ :=
  if la ≤ k ∧ k - la < n_end then x la lb (k - la) else fill

/-- Modelled from `shift_nth_row_n_steps` (row axis `-2`, shift axis `-1`,
`cut_padding=True`): `output[la, lb, k] = input[la, lb, k - lb]` when
`0 ≤ k - lb < n_end`, else the fill value. -/
noncomputable def typeCStage3 (fill : ℝ) (n_end : ℕ) (x : ℕ → ℕ → ℕ → ℝ)
    (la lb k : ℕ) : ℝ :=
  if lb ≤ k ∧ k - lb < n_end then x la lb (k - lb) else fill

/-- Modelled from `to_symmetric(asymmetric=False)` on a child axis: position `j` of
the extended axis reads position `j` for `j < n_end` and position `2 n_end - 1 - j`
(the mirror, no conjugation) otherwise. -/
def symFold (n_end j : ℕ) : ℕ :=
  if j < n_end then j else 2 * n_end - 1 - j

/-- Embedded from `_eigenfunction.py::type_c`: the three-axis eigenfunction tensor
`[l_alpha, l_beta, k]`; `k` is the surrogate order when
`index_with_surrogate_quantum_number` is set, else the physical degree obtained by
interleaving with zeros and shifting once per child axis. -/
noncomputable def type_c (Nc : ℝ → ℝ → ℕ → ℝ) (Pj : ℝ → ℝ → ℕ → ℝ → ℝ)
    (θ sa sb : ℝ) (n_end : ℕ) (index_with_surrogate_quantum_number : Bool)
    (isam ibm : Bool) (fill : ℝ) (la lb k : ℕ) : ℝ :=
  (fun la0 lb0 k0 =>
    if index_with_surrogate_quantum_number then
      type_c_surrogate Nc Pj θ sa sb la0 lb0 k0
    else
      typeCStage3 fill n_end
        (typeCStage2 fill n_end (typeCStage1 (type_c_surrogate Nc Pj θ sa sb)))
        la0 lb0 k0)
  (if isam then symFold n_end la else la) (if ibm then symFold n_end lb else lb) k

/-- Configuration record of the `harmonics` facade (`_core/_harmonics.py`). -/
structure HarmonicsConfig where
  n_end : ℕ
  include_negative_m : Bool
  index_with_surrogate_quantum_number : Bool
  expand_dims : Bool
  flatten : Option Bool
  concat : Bool
deriving DecidableEq, Repr

/-- Embedded from `_core/_harmonics.py::harmonics`: resolve the default of
`flatten` to `concat`, run the three configuration checks in source order and raise
on failure, and only then invoke the eigenfunction computation (abstracted as
`compute`, which covers `_harmonics`, `expand_dims_harmonics`, `concat_harmonics`
and `flatten_harmonics`). -/
def harmonics {R : Type} (cfg : HarmonicsConfig) (compute : Unit → R) :
    Except String R :=
  if cfg.index_with_surrogate_quantum_number && cfg.expand_dims then
    Except.error "expand_dims must be False if index_with_surrogate_quantum_number is True."
  else if cfg.concat && ! cfg.expand_dims then
    Except.error "expand_dims must be True if concat is True."
  else if (cfg.flatten.getD cfg.concat) && ! cfg.expand_dims then
    Except.error "expand_dims must be True if flatten is True."
  else
    Except.ok (compute ())

/-- Embedded from `_core/_concat.py::concat_harmonics`: the source first resolves
the array namespace via `array_namespace(*[harmonics[k] for k in c.s_nodes])`, which
raises `TypeError` when the tree has no angular nodes (array-api-compat's documented
behaviour on zero array arguments); only afterwards comes the `s_ndim == 0` branch
returning the scalar `1`, then the broadcast elementwise product. -/
def concat_harmonics (vals : List (HIdx → ℂ)) : Except String (HIdx → ℂ) :=
  if vals.isEmpty then
    Except.error "array_namespace: Unrecognized array input"
  else if vals.length = 0 then
    Except.ok (fun _ => 1)
  else
    Except.ok (fun a => (vals.map (fun v => v a)).prod)

/-- Modelled from the spec: `unflatten` with a caller-specified fill value
("positions outside the mask are filled with a caller-specified fill value
(default 0) by `unflatten`") — the code's `unflatten_harmonics` has no such
parameter. -/
def unflatten_spec {α : Type} [Zero α] (fill : α) (t : CTree) (inm : Bool)
    (ys : List α) : Except String (HIdx → α) :=
  match assume_from_flattened (t.ndim + 1) ys.length with
  | none => Except.error "The size of the last axis does not correspond to any n_end."
  | some (n_end, _) =>
    if ys.length = (validList t n_end inm).length then
      Except.ok (fun a => if a ∈ validList t n_end inm
        then ys.getD ((validList t n_end inm).indexOf a) fill else fill)
    else Except.error "cannot assign input values to the output values where the mask is true"

/-- Observer: the value of the unflattened tensor at one joint index point. -/
def unflattenAt {α : Type} [Zero α] (t : CTree) (inm : Bool) (ys : List α)
    (a : HIdx) : Except String α :=
  (unflatten_harmonics t inm ys).map (fun u => u a)

/-- Observer: the value of the spec-modelled unflattened tensor at one point. -/
def unflatten_specAt {α : Type} [Zero α] (fill : α) (t : CTree) (inm : Bool)
    (ys : List α) (a : HIdx) : Except String α :=
  (unflatten_spec fill t inm ys).map (fun u => u a)

/-- All nodes (subtrees) of a joint index point, the node itself included. -/
def HIdx.subnodes : HIdx → List HIdx
  | .A m => [.A m]
  | .B l s => .B l s :: s.subnodes
  | .BP l c => .BP l c :: c.subnodes
  | .C l c s => .C l c s :: (c.subnodes ++ s.subnodes)

/-- The local constraint of one node as the claim states it: nothing for type A,
`|index[sin-child]| ≤ index[node]` for type B, `|index[cos-child]| ≤ index[node]`
for type B', parity and nonnegativity of
`index[node] - |index[cos-child]| - |index[sin-child]|` for type C. -/
def nodeConstraint : HIdx → Bool
  | .A _ => true
  | .B l s => decide (|s.root| ≤ l)
  | .BP l c => decide (|c.root| ≤ l)
  | .C l c s =>
      (decide ((l - |c.root| - |s.root|) % 2 = 0)) && (decide (0 ≤ l - |c.root| - |s.root|))

theorem least_bound (c size m : ℕ) (hc : 1 ≤ c) (hm : harm_n_ndim_le m c = size)
    (hleast : ∀ k < m, harm_n_ndim_le k c ≠ size) : m ≤ size + 1 := by
  obtain ⟨e, rfl⟩ : ∃ e, c = e + 1 := ⟨c - 1, by omega⟩
  by_cases he : 1 ≤ e
  · have := harm_le_ge_self e he m
    omega
  · have he0 : e = 0 := by omega
    subst he0
    rw [harm_le_one m] at hm
    by_cases h2 : m ≤ 2
    · omega
    · have hk2 := hleast 2 (by omega)
      rw [harm_le_one 2] at hk2
      omega

theorem assume_least (c size m : ℕ) (hc : 1 ≤ c) (hm : harm_n_ndim_le m c = size)
    (hleast : ∀ k < m, harm_n_ndim_le k c ≠ size) :
    assume_from_flattened c size = some (m, true) := by
  obtain ⟨e, rfl⟩ : ∃ e, c = e + 1 := ⟨c - 1, by omega⟩
  apply assumeLoop_finds (e + 1) size m hm
  · intro k hk
    have h1 := harm_le_mono e (show k ≤ m by omega)
    have h2 := hleast k hk
    omega
  · omega
  · have hb := least_bound (e + 1) size m (by omega) hm hleast
    omega

/-- Bool observer for `Except` results. -/
def exceptOk {ε α : Type} : Except ε α → Bool
  | .ok _ => true
  | .error _ => false

/-- C1: for every coordinate tree and every `n_end ≥ 0`, the number of True
positions of the validity mask produced by `flatten_mask_harmonics` over the joint
index space — and hence the length of the flattened basis axis — equals the
closed-form dimension `harm_n_ndim_le n_end c_ndim` with `c_ndim = s_ndim + 1`; in
particular, for the tree of ordinary 3-D spherical harmonics (a type-B node with a
type-A sin-child) and `n_end = 3` the flattened length is `9`. -/
theorem claim_C1 :
    (∀ (t : CTree) (n_end : ℕ),
      (t.enum n_end true).countP flatten_mask_harmonics
        = harm_n_ndim_le n_end (t.ndim + 1))
    ∧ (validList (CTree.B CTree.A) 3 true).length = 9 :=
  ⟨fun t n_end => mask_count t n_end, by decide⟩

/-- C3: the validity mask is exactly the conjunction, over all tree nodes, of the
local constraints: `|index[sin-child]| ≤ index[node]` at type-B nodes,
`|index[cos-child]| ≤ index[node]` at type-B' nodes, evenness and nonnegativity of
`index[node] - |index[cos-child]| - |index[sin-child]|` at type-C nodes, and no
constraint at type-A nodes. -/
theorem claim_C3 (a : HIdx) :
    flatten_mask_harmonics a = true ↔ ∀ p ∈ a.subnodes, nodeConstraint p = true := by
  induction a with
  | A m =>
      simp [flatten_mask_harmonics, HIdx.subnodes, nodeConstraint]
  | B l s ih =>
      simp only [flatten_mask_harmonics, HIdx.subnodes, Bool.and_eq_true, List.mem_cons]
      constructor
      · rintro ⟨h1, h2⟩ p hp
        rcases hp with rfl | hp
        · exact h1
        · exact (ih.mp h2) p hp
      · intro h
        exact ⟨h _ (Or.inl rfl), ih.mpr (fun p hp => h p (Or.inr hp))⟩
  | BP l c ih =>
      simp only [flatten_mask_harmonics, HIdx.subnodes, Bool.and_eq_true, List.mem_cons]
      constructor
      · rintro ⟨h1, h2⟩ p hp
        rcases hp with rfl | hp
        · exact h1
        · exact (ih.mp h2) p hp
      · intro h
        exact ⟨h _ (Or.inl rfl), ih.mpr (fun p hp => h p (Or.inr hp))⟩
  | C l c s ihc ihs =>
      have e1 : l - |s.root| - |c.root| = l - |c.root| - |s.root| := by ring
      simp only [flatten_mask_harmonics, HIdx.subnodes, Bool.and_eq_true, List.mem_cons,
        List.mem_append, decide_eq_true_eq]
      constructor
      · rintro ⟨⟨hp1, hp2⟩, hc2, hs2⟩ p hp
        rcases hp with rfl | hp | hp
        · show nodeConstraint (HIdx.C l c s) = true
          simp only [nodeConstraint, Bool.and_eq_true, decide_eq_true_eq]
          rw [← e1]
          exact ⟨hp1, hp2⟩
        · exact (ihc.mp hc2) p hp
        · exact (ihs.mp hs2) p hp
      · intro h
        have h0 : nodeConstraint (HIdx.C l c s) = true := h _ (Or.inl rfl)
        simp only [nodeConstraint, Bool.and_eq_true, decide_eq_true_eq] at h0
        rw [← e1] at h0
        exact ⟨⟨h0.1, h0.2⟩, ihc.mpr (fun p hp => h p (Or.inr (Or.inl hp))),
          ihs.mpr (fun p hp => h p (Or.inr (Or.inr hp)))⟩

theorem claim_C3_witness :
    flatten_mask_harmonics (HIdx.B 1 (HIdx.A (-1))) = true
      ↔ ∀ p ∈ (HIdx.B 1 (HIdx.A (-1))).subnodes, nodeConstraint p = true :=
  claim_C3 (HIdx.B 1 (HIdx.A (-1)))

/-- C4: with no phase flags set, `type_a` returns `exp(i m θ) / sqrt(2 π)` along its
trailing axis, the orders being `[0, .., n_end-1]` when negative orders are excluded
and `[0, .., n_end-1, -(n_end-1), .., -1]` when they are included. -/
theorem claim_C4 (θ : ℝ) (n : ℕ) :
    type_a θ n ⟨false, false⟩ false
        = (List.range n).map (fun (k : ℕ) =>
            Complex.exp (Complex.I * (k : ℂ) * (θ : ℂ)) / (Real.sqrt (2 * Real.pi) : ℂ))
    ∧ type_a θ n ⟨false, false⟩ true
        = ((List.range n).map (fun (k : ℕ) =>
            Complex.exp (Complex.I * (k : ℂ) * (θ : ℂ)) / (Real.sqrt (2 * Real.pi) : ℂ)))
          ++ ((List.range (n - 1)).reverse.map (fun (k : ℕ) =>
            Complex.exp (Complex.I * (-((k : ℂ) + 1)) * (θ : ℂ))
              / (Real.sqrt (2 * Real.pi) : ℂ))) := by
  constructor
  · show (posRange n).map (typeAVal θ ⟨false, false⟩) = _
    unfold posRange
    rw [List.map_map]
    congr 1
    funext k
    show typeABase θ ((k : ℕ) : ℤ) * ((typeAPhase ⟨false, false⟩ ((k : ℕ) : ℤ) : ℤ) : ℂ) = _
    show typeABase θ ((k : ℕ) : ℤ) * ((1 : ℤ) : ℂ) = _
    unfold typeABase
    push_cast
    ring
  · show (symRange n).map (typeAVal θ ⟨false, false⟩) = _
    unfold symRange
    rw [List.map_append, List.map_map, List.map_map]
    congr 1
    · congr 1
      funext k
      show typeABase θ ((k : ℕ) : ℤ) * ((1 : ℤ) : ℂ) = _
      unfold typeABase
      push_cast
      ring
    · congr 1
      funext k
      show typeABase θ (-((k : ℤ) + 1)) * ((1 : ℤ) : ℂ) = _
      unfold typeABase
      push_cast
      ring

/-- C5: enabling `CONDON_SHORTLEY` multiplies the type-A value at order `m` by
`(-1)^m`; with `NEGATIVE_LEGENDRE` off the value at order `-m` is the complex
conjugate of the value at order `m`, and with it on it is that conjugate times
`(-1)^m`. -/
theorem claim_C5 (θ : ℝ) (m : ℤ) (cs nl : Bool) :
    typeAVal θ ⟨true, nl⟩ m = (-1 : ℂ) ^ m * typeAVal θ ⟨false, nl⟩ m
    ∧ typeAVal θ ⟨cs, false⟩ (-m) = (starRingEnd ℂ) (typeAVal θ ⟨cs, false⟩ m)
    ∧ typeAVal θ ⟨cs, true⟩ (-m)
        = (-1 : ℂ) ^ m * (starRingEnd ℂ) (typeAVal θ ⟨cs, true⟩ m) := by
  refine ⟨?_, ?_, ?_⟩
  · unfold typeAVal
    rw [typeAPhase_cs nl m]
    push_cast [m1p_cast]
    ring
  · unfold typeAVal
    rw [typeAPhase_neg_false cs m, typeABase_conj θ m, map_mul, map_intCast]
  · unfold typeAVal
    rw [typeAPhase_neg_true cs m, typeABase_conj θ m, map_mul, map_intCast]
    push_cast [m1p_cast]
    ring

/-- C2 counterexample: with `include_negative_m = False` the round trip fails — on
the single-type-A tree with `n_end = 3` the flattened length is `3`, so
`unflatten_harmonics` (which infers `n_end` from the `include_negative_m = True`
dimension formula) recovers `n_end = 2`, and the scatter
`result[..., mask] = harmonics` raises on the length mismatch; the mask does have
True positions, so the failure is not vacuous. -/
theorem claim_C2_counterexample :
    exceptOk (unflatten_harmonics CTree.A false
        (flatten_harmonics CTree.A 3 false (fun a => a.root))) = false
    ∧ HIdx.A 1 ∈ CTree.A.enum 3 false
    ∧ flatten_mask_harmonics (HIdx.A 1) = true
    ∧ (flatten_harmonics CTree.A 3 false (fun a => a.root)).length = 3 := by
  refine ⟨?_, by decide, by decide, by decide⟩
  rfl

/-- C2 (amended): with `include_negative_m = True` (the only setting whose flattened
length matches the dimension formula `unflatten_harmonics` inverts), for every tree
and `n_end`: (i) `unflatten(flatten(x))` succeeds and restores `x` at every masked
position of the joint index space, and (ii) for every list `ys` whose length is the
basis dimension, `unflatten` succeeds and `flatten` (with its shape inference)
returns `ys`. -/
theorem claim_C2 (t : CTree) (n : ℕ) (x : HIdx → ℤ) (ys : List ℤ) (a : HIdx)
    (ha : a ∈ t.enum n true) (hm : flatten_mask_harmonics a = true)
    (hlen : ys.length = harm_n_ndim_le n (t.ndim + 1)) :
    (∃ u, unflatten_harmonics t true (flatten_harmonics t n true x) = Except.ok u
        ∧ u a = x a)
    ∧ (∃ u, unflatten_harmonics t true ys = Except.ok u
        ∧ flatten_harmonics_infer t (jointSizes t n true) u = ys) :=
  ⟨unflatten_flatten_eq t n x a ha hm, flatten_unflatten_eq t n ys hlen⟩

theorem claim_C2_witness :
    (HIdx.B 1 (HIdx.A 1)) ∈ (CTree.B CTree.A).enum 2 true
    ∧ flatten_mask_harmonics (HIdx.B 1 (HIdx.A 1)) = true
    ∧ ([5, 6, 7, 8] : List ℤ).length
        = harm_n_ndim_le 2 ((CTree.B CTree.A).ndim + 1)
    ∧ ((∃ u, unflatten_harmonics (CTree.B CTree.A) true
          (flatten_harmonics (CTree.B CTree.A) 2 true (fun a => a.root))
            = Except.ok u ∧ u (HIdx.B 1 (HIdx.A 1)) = (HIdx.B 1 (HIdx.A 1)).root)
      ∧ (∃ u, unflatten_harmonics (CTree.B CTree.A) true ([5, 6, 7, 8] : List ℤ)
            = Except.ok u
          ∧ flatten_harmonics_infer (CTree.B CTree.A)
              (jointSizes (CTree.B CTree.A) 2 true) u = [5, 6, 7, 8])) :=
  ⟨by decide, by decide, by decide,
    claim_C2 (CTree.B CTree.A) 2 (fun a => a.root) [5, 6, 7, 8]
      (HIdx.B 1 (HIdx.A 1)) (by decide) (by decide) (by decide)⟩

/-- C6: the type-C evaluator computes, at surrogate order `n` and child offsets
`l_cos = la`, `l_sin = lb`, the value
`2^((α+β)/2+1) ⬝ N(α,β,n) ⬝ sin θ^lb ⬝ cos θ^la ⬝ Jacobi(β,α,n)(cos 2θ)` with
`α = la + s_cos/2`, `β = lb + s_sin/2` (normalization keeps `(α,β)`, the polynomial
swaps to `(β,α)`); when not indexing by surrogate number, the physical-degree entry
at `l = la + lb + 2n` equals that surrogate value (via zero-interleaving and one
diagonal shift per child axis), and entries with `l < la + lb` are the fill value. -/
theorem claim_C6 (Nc : ℝ → ℝ → ℕ → ℝ) (Pj : ℝ → ℝ → ℕ → ℝ → ℝ)
    (θ sa sb : ℝ) (n_end : ℕ) (fill : ℝ) (la lb n l : ℕ)
    (hn : n < (n_end + 1) / 2) (hl : l = la + lb + 2 * n) (hln : l < n_end) :
    type_c Nc Pj θ sa sb n_end true false false fill la lb n
        = (2 : ℝ) ^ ((((la : ℝ) + sa / 2) + ((lb : ℝ) + sb / 2)) / 2 + 1)
            * Nc ((la : ℝ) + sa / 2) ((lb : ℝ) + sb / 2) n
            * Real.sin θ ^ lb * Real.cos θ ^ la
            * Pj ((lb : ℝ) + sb / 2) ((la : ℝ) + sa / 2) n (Real.cos (2 * θ))
    ∧ type_c Nc Pj θ sa sb n_end false false false fill la lb l
        = type_c Nc Pj θ sa sb n_end true false false fill la lb n
    ∧ (∀ k, k < la + lb →
        type_c Nc Pj θ sa sb n_end false false false fill la lb k = fill) := by
  refine ⟨rfl, ?_, ?_⟩
  · show typeCStage3 fill n_end
        (typeCStage2 fill n_end (typeCStage1 (type_c_surrogate Nc Pj θ sa sb)))
        la lb l = type_c_surrogate Nc Pj θ sa sb la lb n
    unfold typeCStage3 typeCStage2 typeCStage1
    rw [if_pos (by omega : lb ≤ l ∧ l - lb < n_end),
      if_pos (by omega : la ≤ l - lb ∧ l - lb - la < n_end),
      if_pos (by omega : (l - lb - la) % 2 = 0)]
    congr 1
    omega
  · intro k hk
    show typeCStage3 fill n_end
        (typeCStage2 fill n_end (typeCStage1 (type_c_surrogate Nc Pj θ sa sb)))
        la lb k = fill
    unfold typeCStage3 typeCStage2
    by_cases h1 : lb ≤ k ∧ k - lb < n_end
    · rw [if_pos h1, if_neg (by omega : ¬ (la ≤ k - lb ∧ k - lb - la < n_end))]
    · rw [if_neg h1]

theorem claim_C6_witness :
    1 < (4 + 1) / 2
    ∧ (3 : ℕ) = 1 + 0 + 2 * 1
    ∧ 3 < 4
    ∧ (type_c (fun _ _ _ => (1 : ℝ)) (fun _ _ _ _ => 1) 0 0 0 4 true false false 5 1 0 1
          = (2 : ℝ) ^ ((((1 : ℕ) : ℝ) + (0 : ℝ) / 2 + (((0 : ℕ) : ℝ) + (0 : ℝ) / 2)) / 2 + 1)
              * (fun (_ : ℝ) (_ : ℝ) (_ : ℕ) => (1 : ℝ)) (((1 : ℕ) : ℝ) + (0 : ℝ) / 2)
                  (((0 : ℕ) : ℝ) + (0 : ℝ) / 2) 1
              * Real.sin 0 ^ (0 : ℕ) * Real.cos 0 ^ (1 : ℕ)
              * (fun (_ : ℝ) (_ : ℝ) (_ : ℕ) (_ : ℝ) => (1 : ℝ))
                  (((0 : ℕ) : ℝ) + (0 : ℝ) / 2) (((1 : ℕ) : ℝ) + (0 : ℝ) / 2) 1
                  (Real.cos (2 * 0))
        ∧ type_c (fun _ _ _ => (1 : ℝ)) (fun _ _ _ _ => 1) 0 0 0 4 false false false 5 1 0 3
            = type_c (fun _ _ _ => (1 : ℝ)) (fun _ _ _ _ => 1) 0 0 0 4 true false false 5 1 0 1
        ∧ (∀ k, k < 1 + 0 →
            type_c (fun _ _ _ => (1 : ℝ)) (fun _ _ _ _ => 1) 0 0 0 4 false false false 5 1 0 k
              = 5)) :=
  ⟨by norm_num, by norm_num, by norm_num,
    claim_C6 (fun _ _ _ => (1 : ℝ)) (fun _ _ _ _ => 1) 0 0 0 4 5 1 0 1 3
      (by norm_num) (by norm_num) (by norm_num)⟩

/-- C7: the `harmonics` facade raises before computing any eigenfunction — for every
abstract eigenfunction computation `compute`, requesting `flatten` (after resolving
its `None` default to `concat`) without `expand_dims`, or `concat` without
`expand_dims`, or surrogate indexing together with `expand_dims`, yields an error
and never a partial result. -/
theorem claim_C7 {R : Type} (cfg : HarmonicsConfig) (compute : Unit → R)
    (h : (cfg.flatten.getD cfg.concat = true ∧ cfg.expand_dims = false)
      ∨ (cfg.concat = true ∧ cfg.expand_dims = false)
      ∨ (cfg.index_with_surrogate_quantum_number = true ∧ cfg.expand_dims = true)) :
    ∃ msg, harmonics cfg compute = Except.error msg := by
  unfold harmonics
  rcases h with ⟨hf, he⟩ | ⟨hc, he⟩ | ⟨hs, he⟩
  · by_cases hs0 : cfg.index_with_surrogate_quantum_number && cfg.expand_dims
    · rw [if_pos hs0]
      exact ⟨_, rfl⟩
    · rw [if_neg hs0]
      by_cases hc0 : cfg.concat && ! cfg.expand_dims
      · rw [if_pos hc0]
        exact ⟨_, rfl⟩
      · rw [if_neg hc0, if_pos (by rw [hf, he]; rfl)]
        exact ⟨_, rfl⟩
  · by_cases hs0 : cfg.index_with_surrogate_quantum_number && cfg.expand_dims
    · rw [if_pos hs0]
      exact ⟨_, rfl⟩
    · rw [if_neg hs0, if_pos (by rw [hc, he]; rfl)]
      exact ⟨_, rfl⟩
  · rw [if_pos (by rw [hs, he]; rfl)]
    exact ⟨_, rfl⟩

theorem claim_C7_witness :
    ((HarmonicsConfig.mk 2 true false false (some true) false).flatten.getD
        (HarmonicsConfig.mk 2 true false false (some true) false).concat = true
      ∧ (HarmonicsConfig.mk 2 true false false (some true) false).expand_dims = false)
    ∧ ∃ msg, harmonics (HarmonicsConfig.mk 2 true false false (some true) false)
        (fun _ => (0 : ℕ)) = Except.error msg :=
  ⟨⟨rfl, rfl⟩, claim_C7 (HarmonicsConfig.mk 2 true false false (some true) false)
    (fun _ => (0 : ℕ)) (Or.inl ⟨rfl, rfl⟩)⟩

/-- C8: the claim says a tree with zero angular nodes makes `concat_harmonics`
return the scalar constant `1`; but the source computes
`xp = array_namespace(*[harmonics[node] for node in c.s_nodes])` BEFORE the
`if c.s_ndim == 0` check, and with zero angular nodes the argument list is empty,
so `array_namespace` raises `TypeError` and the `return xp.asarray(1)` branch is
unreachable — the assembly errors instead of returning 1. -/
theorem claim_C8 :
    concat_harmonics [] = Except.error "array_namespace: Unrecognized array input"
    ∧ exceptOk (concat_harmonics []) = false :=
  ⟨rfl, rfl⟩

/-- C9 counterexample: `unflatten_harmonics` has no fill parameter — outside-mask
positions are always `0` (the `xp.zeros` background), never a caller-specified
value.  The spec-modelled variant with fill `7` disagrees with the code at the
unmasked point `(l, m) = (0, 1)` of the 2-sphere tree. -/
theorem claim_C9_counterexample :
    unflattenAt (CTree.B CTree.A) true ([1, 2, 3, 4] : List ℤ) (HIdx.B 0 (HIdx.A 1))
        = Except.ok 0
    ∧ unflatten_specAt (7 : ℤ) (CTree.B CTree.A) true ([1, 2, 3, 4] : List ℤ)
        (HIdx.B 0 (HIdx.A 1)) = Except.ok 7
    ∧ flatten_mask_harmonics (HIdx.B 0 (HIdx.A 1)) = false :=
  ⟨rfl, rfl, by decide⟩

/-- C9 (amended): `unflatten_harmonics` fills every position of the joint-shape
output that lies outside the validity mask with the constant `0` (there is no fill
parameter), while masked positions receive the entries of the flattened input in
mask order. -/
theorem claim_C9 {α : Type} [Zero α] (t : CTree) (n : ℕ) (ys : List α)
    (hlen : ys.length = harm_n_ndim_le n (t.ndim + 1)) :
    ∃ u, unflatten_harmonics t true ys = Except.ok u
      ∧ (∀ a ∈ t.enum n true, flatten_mask_harmonics a = false → u a = 0)
      ∧ (∀ a ∈ t.enum n true, flatten_mask_harmonics a = true →
          u a = ys.getD ((validList t n true).indexOf a) 0) := by
  refine ⟨_, unflatten_of_harm_le_len t n ys hlen, ?_, ?_⟩
  · intro a _ hm
    have hnot : a ∉ validList t n true := by
      intro hmem
      have := (List.mem_filter.mp hmem).2
      rw [hm] at this
      exact Bool.false_ne_true this
    show (if a ∈ validList t n true
        then ys.getD ((validList t n true).indexOf a) 0 else 0) = 0
    rw [if_neg hnot]
  · intro a ha hm
    have hmem : a ∈ validList t n true := List.mem_filter.mpr ⟨ha, hm⟩
    show (if a ∈ validList t n true
        then ys.getD ((validList t n true).indexOf a) 0 else 0)
      = ys.getD ((validList t n true).indexOf a) 0
    rw [if_pos hmem]

theorem claim_C9_witness :
    ([1, 2, 3, 4] : List ℤ).length = harm_n_ndim_le 2 ((CTree.B CTree.A).ndim + 1)
    ∧ ∃ u, unflatten_harmonics (CTree.B CTree.A) true ([1, 2, 3, 4] : List ℤ)
          = Except.ok u
      ∧ (∀ a ∈ (CTree.B CTree.A).enum 2 true,
          flatten_mask_harmonics a = false → u a = 0)
      ∧ (∀ a ∈ (CTree.B CTree.A).enum 2 true,
          flatten_mask_harmonics a = true →
            u a = ([1, 2, 3, 4] : List ℤ).getD
              ((validList (CTree.B CTree.A) 2 true).indexOf a) 0) :=
  ⟨by decide, claim_C9 (CTree.B CTree.A) 2 [1, 2, 3, 4] (by decide)⟩

/-- C10: in the `flatten=True` branch of
`assume_n_end_and_include_negative_m_from_harmonics`, whenever the last-axis size
matches the dimension formula at some `n_end`, the loop terminates reporting
`include_negative_m = True` unconditionally, and the `n_end` it returns is the
smallest one whose dimension equals that size. -/
theorem claim_C10 (c size n : ℕ) (hc : 1 ≤ c) (hn : harm_n_ndim_le n c = size) :
    ∃ m, assume_from_flattened c size = some (m, true)
      ∧ harm_n_ndim_le m c = size
      ∧ ∀ k < m, harm_n_ndim_le k c ≠ size := by
  have hex : ∃ k, harm_n_ndim_le k c = size := ⟨n, hn⟩
  exact ⟨Nat.find hex,
    assume_least c size (Nat.find hex) hc (Nat.find_spec hex)
      (fun k hk => Nat.find_min hex hk),
    Nat.find_spec hex, fun k hk => Nat.find_min hex hk⟩

theorem claim_C10_witness :
    1 ≤ 3 ∧ harm_n_ndim_le 2 3 = 4
    ∧ ∃ m, assume_from_flattened 3 4 = some (m, true)
      ∧ harm_n_ndim_le m 3 = 4
      ∧ ∀ k < m, harm_n_ndim_le k 3 ≠ 4 :=
  ⟨by decide, by decide, claim_C10 3 4 2 (by decide) (by decide)⟩
